import Mathlib

/-!
# condor-log-monitor (`clm.go`): event segmentation, log-set ordering, tombstones,
reconnection

A shallow embedding of `services/condor-log-monitor/clm.go`.

* Go strings are modelled by `String`; a "line" is the `text` value the loop body sees.  Where
  the bytes of a file are counted (`bufio.Reader`), a `Char` stands for one byte.
* The AMQP broker is an oracle `pub : Nat → Option String`: `pub k` is the error returned by
  the `k`-th call of `PublishBytes` (`none` for `nil`).
* `regexp.MatchString` with the two constant patterns of the source is modelled by the
  functions `matchStart` and `matchEnd`.  It returns an error only for a pattern that does not
  compile, so the `if err != nil { return err }` branches after it are dead; `json.Marshal` of a
  `PublishableEvent` (two string fields) has no error path either.
-/

namespace CLM

/-! ## Event segmenter (`ParseEvent`, `ParseEventFile`) -/

/-- Go (RE2) `\d`: an ASCII decimal digit. -/
def isDigit (c : Char) : Bool := decide ('0' ≤ c) && decide (c ≤ '9')

/-- Go (RE2) `\s`: one of tab, newline, form feed, carriage return, space. -/
def isSpace (c : Char) : Bool :=
  c == '\t' || c == '\n' || c == '\x0c' || c == '\r' || c == ' '

/-- The call `regexp.MatchString(startRegex, text)` with
`startRegex = "^[\\d][\\d][\\d]\\s.*"`: the text begins with three digits and a whitespace
character (`.*` also matches the empty string). -/
def matchStart (text : String) : Bool :=
  match text.data with
  | a :: b :: c :: d :: _ => isDigit a && isDigit b && isDigit c && isSpace d
  | _ => false

/-- The call `regexp.MatchString(endRegex, text)` with `endRegex = "^\\.\\.\\..*"`: the text
begins with three full stops. -/
def matchEnd (text : String) : Bool :=
  match text.data with
  | '.' :: '.' :: '.' :: _ => true
  | _ => false

/-- The local variables of the segmentation loop together with what the loop has done so far.
`published` lists, in call order, the `Event` field of every `PublishableEvent` whose JSON was
handed to `PublishBytes`; `stdout` lists what `fmt.Println` printed. -/
structure Segmenter where
  foundStart : Bool
  eventlines : String
  published : List String
  stdout : List String
deriving DecidableEq, Repr

/-- The state before the first line: `foundStart := false`, `var eventlines string`. -/
def Segmenter.init : Segmenter :=
  { foundStart := false, eventlines := "", published := [], stdout := [] }

/-- The body of the loop for one `text` (lines 259-290 of `ParseEvent`, and the identical lines
322-353 of `ParseEventFile`). -/
def segmentLine (pub : Nat → Option String) (s : Segmenter) (text : String) : Segmenter :=
  if !s.foundStart then
    if matchStart text then
      { s with foundStart := true, eventlines := s.eventlines ++ text ++ "\n" }
    else s
  else
    let eventlines := s.eventlines ++ text ++ "\n"
    if matchEnd text then
      let printed := s.stdout ++ [eventlines]
      let printed :=
        match pub s.published.length with
        | some err => printed ++ [err]
        | none => printed
      { foundStart := false, eventlines := "",
        published := s.published ++ [eventlines], stdout := printed }
    else { s with eventlines := eventlines }

/-- Go `ParseEvent`, run on the lines that the tail delivers on `t.Lines`, in order. -/
def ParseEvent (pub : Nat → Option String) (lines : List String) : Segmenter :=
  lines.foldl (segmentLine pub) Segmenter.init

/-- One result of `reader.ReadLine()`: a slice `buf[off : off+len]` of the reader's own buffer
(its capacity reaches to the end of the buffer). -/
structure Slice where
  off : Nat
  len : Nat
deriving DecidableEq, Repr

/-- The errors of `ReadSlice`: nil, `ErrBufferFull`, `io.EOF`. -/
inductive ReadErr
  | none
  | bufferFull
  | eof
deriving DecidableEq, Repr

/-- Go `defaultBufSize`, the size of the buffer that `bufio.NewReader` makes. -/
def defaultBufSize : Nat := 4096

/-- A `bufio.Reader` on an opened file: the buffer `buf` (an array of fixed length), the read
and write positions `r` and `w`, whether the error `io.EOF` is pending in `err`, and the
bytes `rd` of the file that have not been read yet.  A byte is modelled by a `Char`. -/
structure Reader where
  buf : List Char
  r : Nat
  w : Nat
  err : Bool
  rd : List Char
deriving DecidableEq, Repr

/-- The call `bufio.NewReader(openFile)`. -/
def NewReader (file : String) : Reader :=
  { buf := List.replicate defaultBufSize (Char.ofNat 0), r := 0, w := 0, err := false,
    rd := file.data }

/-- The bytes that a slice of the reader's buffer shows now. -/
def Reader.bytes (b : Reader) (s : Slice) : List Char := (b.buf.drop s.off).take s.len

/-- Go `Reader.fill`: the unread bytes slide to the start of the buffer, then one `Read` of the
file fills the buffer behind them as far as the file reaches; a `Read` at the end of the file
leaves `io.EOF` pending. -/
def Reader.fill (b : Reader) : Reader :=
  let b1 : Reader :=
    if b.r > 0 then
      { b with buf := (b.buf.drop b.r).take (b.w - b.r) ++ b.buf.drop (b.w - b.r),
               w := b.w - b.r, r := 0 }
    else b
  let n := min (b1.buf.length - b1.w) b1.rd.length
  if n = 0 then { b1 with err := true }
  else
    { b1 with buf := b1.buf.take b1.w ++ (b1.rd.take n ++ b1.buf.drop (b1.w + n)),
              w := b1.w + n, rd := b1.rd.drop n }

/-- Go `bytes.IndexByte`. -/
def indexByte (c : Char) : List Char → Nat → Option Nat
  | [], _ => none
  | x :: xs, i => if x = c then some i else indexByte c xs (i + 1)

/-- Go `Reader.ReadSlice('\n')`: the loop searches the unread bytes for the delimiter, returns
them with the pending error if there is one, returns the whole buffer with `ErrBufferFull`
if it is full, and fills the buffer otherwise.  Three rounds are enough: a round that fills
either fills the buffer up or reaches the end of the file (`ReadSlice_rounds`). -/
def Reader.ReadSlice : Nat → Reader → Reader × Slice × ReadErr
  | 0, b => (b, ⟨b.r, 0⟩, .eof)
  | rounds + 1, b =>
    match indexByte '\n' ((b.buf.drop b.r).take (b.w - b.r)) 0 with
    | some i => ({ b with r := b.r + i + 1 }, ⟨b.r, i + 1⟩, .none)
    | none =>
      if b.err then ({ b with r := b.w, err := false }, ⟨b.r, b.w - b.r⟩, .eof)
      else if b.buf.length ≤ b.w - b.r then ({ b with r := b.w }, ⟨0, b.buf.length⟩, .bufferFull)
      else Reader.ReadSlice rounds b.fill

/-- Go `Reader.ReadLine`: the reader afterwards, the line, `isPrefix` and whether the error is
not nil.  On `ErrBufferFull` the buffer is returned as the beginning of a line, a carriage
return at its end being put back; otherwise the end-of-line bytes are cut off. -/
def Reader.ReadLine (b : Reader) : Reader × Slice × Bool × Bool :=
  match b.ReadSlice 3 with
  | (b1, line, .bufferFull) =>
    if 0 < line.len ∧ b1.buf.getD (line.off + line.len - 1) (Char.ofNat 0) = '\r' then
      ({ b1 with r := b1.r - 1 }, { line with len := line.len - 1 }, true, false)
    else (b1, line, true, false)
  | (b1, line, err) =>
    if line.len = 0 then (b1, line, false, decide (err ≠ .none))
    else if b1.buf.getD (line.off + line.len - 1) (Char.ofNat 0) = '\n' then
      if 1 < line.len ∧ b1.buf.getD (line.off + line.len - 2) (Char.ofNat 0) = '\r' then
        (b1, { line with len := line.len - 2 }, false, false)
      else (b1, { line with len := line.len - 1 }, false, false)
    else (b1, line, false, false)

/-- The call `append(prefixBuffer, line...)` where both slices lie in the reader's buffer: with
room in the capacity of `prefixBuffer` the bytes of `line` are written into the reader's
buffer behind it, otherwise a new array is made; either way the result shows the bytes that
the two slices show now. -/
def appendSlices (b : Reader) (prefixBuffer line : Slice) : Reader × List Char :=
  if prefixBuffer.len + line.len ≤ b.buf.length - prefixBuffer.off then
    ({ b with buf := b.buf.take (prefixBuffer.off + prefixBuffer.len) ++
          (b.bytes line ++ b.buf.drop (prefixBuffer.off + prefixBuffer.len + line.len)) },
      b.bytes prefixBuffer ++ b.bytes line)
  else (b, b.bytes prefixBuffer ++ b.bytes line)

/-- The loop of `ParseEventFile`, for at most `rounds` calls of `ReadLine`: the segmenter at
the end and whether the loop was left through `break`.  `prefixBuffer = line` keeps the slice
of the reader's buffer, not a copy of its bytes. -/
def ParseEventFile.loop (pub : Nat → Option String) :
    Nat → Reader → Slice → Segmenter → Segmenter × Bool
  | 0, _, _, s => (s, false)
  | rounds + 1, reader, prefixBuffer, s =>
    match reader.ReadLine with
    | (reader1, line, more, err) =>
      if err then (s, true)
      else if more then ParseEventFile.loop pub rounds reader1 line s
      else
        let glued : Reader × List Char :=
          if 0 < prefixBuffer.len then appendSlices reader1 prefixBuffer line
          else (reader1, reader1.bytes line)
        ParseEventFile.loop pub rounds glued.1 ⟨0, 0⟩ (segmentLine pub s (String.mk glued.2))

/-- Go `ParseEventFile` on the content of an opened file.  Every call of `ReadLine` without an
error takes at least one byte of the file, so `file.length + 2` rounds reach the `break`
(`ParseEventFile_ends`). -/
def ParseEventFile (pub : Nat → Option String) (file : String) : Segmenter :=
  (ParseEventFile.loop pub (file.length + 2) (NewReader file) ⟨0, 0⟩ Segmenter.init).1

/-- A log file with a first line of 5004 bytes: `100 `, 5000 times `a`, then the line `...`. -/
def longLineFile : String :=
  String.mk ("100 ".data ++ (List.replicate 5000 'a' ++ "\n...\n".data))

/-- The lines of `longLineFile`. -/
def longLineFileLines : List String :=
  [String.mk ("100 ".data ++ List.replicate 5000 'a'), "..."]

/-- A log file whose second line has 5000 bytes: the line `100 x`, a line of 5000 times `b`,
then the line `...`. -/
def longBodyFile : String :=
  String.mk ("100 x\n".data ++ (List.replicate 5000 'b' ++ "\n...\n".data))

/-- The lines of `longBodyFile`. -/
def longBodyFileLines : List String :=
  ["100 x", String.mk (List.replicate 5000 'b'), "..."]

/-- Specification side: the two states of the segmenter. -/
inductive SegState
  | Idle
  | Accumulating
deriving DecidableEq, Repr

/-- Specification side: a start line opens an event, an end marker closes the open event. -/
def SegState.next : SegState → String → SegState
  | .Idle, l => if matchStart l then .Accumulating else .Idle
  | .Accumulating, l => if matchEnd l then .Idle else .Accumulating

/-- Specification side: the number of end-marker lines met in state `Accumulating`. -/
def endMarkersWhileAccumulating : SegState → List String → Nat
  | _, [] => 0
  | st, l :: ls =>
    (if st = .Accumulating ∧ matchEnd l = true then 1 else 0) +
      endMarkersWhileAccumulating (st.next l) ls

/-- Specification side: the text of an event, every line followed by a newline. -/
def eventText : List String → String
  | [] => ""
  | l :: ls => l ++ "\n" ++ eventText ls

/-- The events that the loop body hands to the publisher when it runs over `lines` from a
state with the given `foundStart` and `eventlines`. -/
def emitted : Bool → String → List String → List String
  | _, _, [] => []
  | false, acc, l :: ls =>
    if matchStart l then emitted true (acc ++ l ++ "\n") ls else emitted false acc ls
  | true, acc, l :: ls =>
    if matchEnd l then (acc ++ l ++ "\n") :: emitted false "" ls
    else emitted true (acc ++ l ++ "\n") ls

/-! ### The reader between calls

What the statements about `bufio.Reader` and the loop of `ParseEventFile` are phrased with. -/

/-- The invariant of a `bufio.Reader`: the buffer keeps its length, the positions are in
order, and an error is pending only once the file is used up. -/
def Reader.Ok (b : Reader) : Prop :=
  b.buf.length = defaultBufSize ∧ b.r ≤ b.w ∧ b.w ≤ b.buf.length ∧ (b.err = true → b.rd = [])

/-- The number of bytes of the file that the reader has not handed out yet. -/
def Reader.unread (b : Reader) : Nat := (b.w - b.r) + b.rd.length

/-- What a call of `ReadSlice` on a reader with `u` unread bytes leaves: a slice inside the
buffer, and fewer unread bytes unless the call ends in `io.EOF`. -/
def Reader.SliceRead (u : Nat) (res : Reader × Slice × ReadErr) : Prop :=
  res.1.Ok ∧ res.2.1.off + res.2.1.len ≤ defaultBufSize ∧
    match res.2.2 with
    | .none => res.1.unread < u
    | .bufferFull =>
      res.1.unread + defaultBufSize = u ∧ res.1.r = defaultBufSize ∧ res.1.w = defaultBufSize
    | .eof => res.1.unread = 0 ∧ res.2.1.len = u

/-- The bytes of the file that the reader has not handed out yet: what is buffered, then what
is still in the file. -/
def Reader.pending (b : Reader) : List Char := (b.buf.drop b.r).take (b.w - b.r) ++ b.rd

/-- A line that `ReadLine` returns as it stands in the file: no newline inside, shorter than
the reader's buffer, no carriage return at its end. -/
def ShortLine (l : String) : Prop :=
  '\n' ∉ l.data ∧ l.length < defaultBufSize ∧ l.data.getLast? ≠ some '\r'

/-! ## Log files and their order (`Logfile`, `LogfileList`) -/

/-- A point in time as `time.Time` presents it: the civil date and clock reading in the
time's own zone, and the offset of that zone in seconds east of UTC. -/
structure Time where
  year : Int
  month : Nat
  day : Nat
  hour : Nat
  minute : Nat
  second : Nat
  nsec : Nat
  offset : Int
deriving DecidableEq, Repr

/-- What the program reads from an `os.FileInfo`: `Name()`, `ModTime()` and the inode number
`Sys().(*syscall.Stat_t).Ino` (a `uint64`). -/
structure FileInfo where
  Name : String
  ModTime : Time
  Ino : Nat
deriving DecidableEq, Repr

/-- Go `Logfile`: a file of the log directory. -/
structure Logfile where
  Info : FileInfo
  BaseDir : String
deriving DecidableEq, Repr

/-- Go `LogfileList`: a list of `Logfile`s. -/
abbrev LogfileList := List Logfile

/-- Go `InodeFromFileInfo`. -/
def InodeFromFileInfo (info : FileInfo) : Nat := info.Ino

/-- Go `NewLogfileList`: the entries of the directory listing whose name starts with `logname`, in
listing order, or the error of `ioutil.ReadDir`. -/
def NewLogfileList (readDir : Except String (List FileInfo)) (dir logname : String) :
    Except String LogfileList :=
  match readDir with
  | .error err => .error err
  | .ok startingList =>
    .ok ((startingList.filter (fun fi => List.isPrefixOf logname.data fi.Name.data)).map
      (fun fi => { Info := fi, BaseDir := dir }))

/-- The call `regexp.MustCompile("\\.\\d+$").Find`: the leftmost match, tried at each position in turn.
At a position the pattern matches when a full stop is followed by one or more digits that
reach the end of the text.  `none` stands for the nil slice. -/
def reFind : List Char → Option (List Char)
  | [] => none
  | c :: cs =>
    if c = '.' ∧ cs ≠ [] ∧ cs.all isDigit = true then some (c :: cs) else reFind cs

/-- The value of a string of decimal digits. -/
def decimalValue (ds : List Char) : Nat :=
  ds.foldl (fun n c => 10 * n + (c.toNat - '0'.toNat)) 0

/-- Go `strconv.Atoi` where `int` has 64 bits: an optional sign, then one or more digits; a value
outside the range of `int` is an error. -/
def Atoi (s : List Char) : Except String Int :=
  let signed : Bool × List Char :=
    match s with
    | '+' :: t => (false, t)
    | '-' :: t => (true, t)
    | _ => (false, s)
  let neg := signed.1
  let ds := signed.2
  if ds.isEmpty || !ds.all isDigit then .error "invalid syntax"
  else if !neg && decide (2 ^ 63 ≤ decimalValue ds) then .error "value out of range"
  else if neg && decide (2 ^ 63 < decimalValue ds) then .error "value out of range"
  else .ok (if neg then -(decimalValue ds : Int) else (decimalValue ds : Int))

/-- The body of `LogfileList.Less` on the two names `l[i].Info.Name()`, `l[j].Info.Name()`. -/
def lessNames (logname1 logname2 : String) : Bool :=
  let match1 := reFind logname1.data
  let match2 := reFind logname2.data
  match match1, match2 with
  | none, none => false
  | none, some _ => false
  | some _, none => true
  | some m1, some m2 =>
    match Atoi (m1.drop 1) with
    | .error _ => false
    | .ok match1int =>
      match Atoi (m2.drop 1) with
      | .error _ => true
      | .ok match2int => decide (match1int > match2int)

/-- Go `LogfileList.Less`. -/
def LogfileList.Less (l : LogfileList) (i j : Fin l.length) : Bool :=
  lessNames (l.get i).Info.Name (l.get j).Info.Name

/-- The loop of `SliceByInode`: the value of `foundIdx` when the loop is left, `idx` being the
index of the first entry of `rest`.  `foundIdx` keeps its initial value 0 when no entry
matches. -/
def SliceByInode.foundIdx (inode : Nat) : List Logfile → Nat → Nat
  | [], _ => 0
  | logfile :: rest, idx =>
    if InodeFromFileInfo logfile.Info = inode then idx
    else SliceByInode.foundIdx inode rest (idx + 1)

/-- Go `LogfileList.SliceByInode`: `l[foundIdx:]`. -/
def LogfileList.SliceByInode (l : LogfileList) (inode : Nat) : LogfileList :=
  l.drop (SliceByInode.foundIdx inode l 0)

/-- The contract of `sort.Sort(logList)`: `out` holds the entries of `l` in some order in
which no entry is `Less` than an entry before it. -/
def IsSortOf (out l : LogfileList) : Prop :=
  out.Perm l ∧ out.Pairwise (fun a b => lessNames b.Info.Name a.Info.Name = false)

/-- Specification side: `name` has the form `<base>.<n>`, the number written with one or more
decimal digits. -/
def HasNumber (name : String) (n : Nat) : Prop :=
  ∃ (base ds : List Char), name.data = base ++ '.' :: ds ∧ ds ≠ [] ∧
    (∀ c ∈ ds, isDigit c = true) ∧ decimalValue ds = n

/-- Specification side: `name` has no numeric suffix. -/
def Suffixless (name : String) : Prop := ∀ n, ¬ HasNumber name n

/-- The instant 1970-01-01T00:00:00Z. -/
def Time.epoch : Time :=
  { year := 1970, month := 1, day := 1, hour := 0, minute := 0, second := 0, nsec := 0,
    offset := 0 }

/-- A log file of directory `/var/log/condor` with the given name and inode number, for
examples. -/
def logfileNamed (name : String) (ino : Nat) : Logfile :=
  { Info := { Name := name, ModTime := Time.epoch, Ino := ino }, BaseDir := "/var/log/condor" }

/-- The number that `Less` reads off a name: the value of the digits behind the full stop of
the match of `reFind`, if there is a match. -/
def suffixValue (name : String) : Option Nat :=
  (reFind name.data).map (fun m => decimalValue (m.drop 1))

/-- Specification side: the suffixed names in strictly descending order of their number,
followed by the suffixless name, if there is one. -/
def DescendingThenPlain (out : LogfileList) : Prop :=
  ∃ suffixed plain : List Logfile, out = suffixed ++ plain ∧
    (∀ f ∈ suffixed, ∃ n, HasNumber f.Info.Name n) ∧
    suffixed.Pairwise (fun f g => ∃ n m, HasNumber f.Info.Name n ∧
      HasNumber g.Info.Name m ∧ m < n) ∧
    (∀ f ∈ plain, Suffixless f.Info.Name) ∧ plain.length ≤ 1

/-- The listing of the specification's ordering example. -/
def exampleListing : LogfileList :=
  [logfileNamed "evt" 1, logfileNamed "evt.3" 2, logfileNamed "evt.1" 3, logfileNamed "evt.10" 4]

/-- The order the specification gives for `exampleListing`. -/
def exampleSorted : LogfileList :=
  [logfileNamed "evt.10" 4, logfileNamed "evt.3" 2, logfileNamed "evt.1" 3, logfileNamed "evt" 1]

/-- Two rotated files, the first with a number that does not fit a 64-bit `int`. -/
def overflowListing : LogfileList :=
  [logfileNamed "evt.9223372036854775808" 1, logfileNamed "evt.1" 2]

/-- Specification side: two names that `Less` leaves unordered: both without a numeric suffix,
or both with a numeric suffix of the same value, or both with a numeric suffix too large for
`int`. -/
def Tied (a b : String) : Prop :=
  (Suffixless a ∧ Suffixless b) ∨
  ∃ n m, HasNumber a n ∧ HasNumber b m ∧ (n = m ∨ (2 ^ 63 ≤ n ∧ 2 ^ 63 ≤ m))

/-- A directory with the live log and a copy of it that carries no numeric suffix. -/
def tiedDirectory : List FileInfo :=
  [{ Name := "evt", ModTime := Time.epoch, Ino := 1 },
   { Name := "evt.old", ModTime := Time.epoch, Ino := 2 },
   { Name := "other.log", ModTime := Time.epoch, Ino := 3 }]

/-- What `NewLogfileList` keeps of `tiedDirectory` for the log name `evt`. -/
def tiedListing : LogfileList :=
  [logfileNamed "evt" 1, logfileNamed "evt.old" 2]

/-! ## Timestamps (`time.Time` in the tombstone file)

`json.Marshal` writes a `time.Time` through `Time.MarshalJSON`, which fails for a year outside
`[0, 9999]` and otherwise writes the layout `RFC3339Nano`
(`2006-01-02T15:04:05.999999999Z07:00`).  `time.Parse` is modelled for the two layouts that
`Convert` passes, `RFC3339Nano` and `RFC3339`, on the grammar of RFC 3339: four-digit year,
two-digit month, day, hour, minute and second, an optional fraction of one to nine digits
(which `time.Parse` also accepts when the layout shows none), and a zone `Z` or `±hh:mm`.
Any other text is an error in the model. -/

/-- The character of a decimal digit. -/
def digitChar (d : Nat) : Char := Char.ofNat ('0'.toNat + d)

/-- The decimal digits of `u`, most significant first (`fuel` bounds the number of digits). -/
def natDigits : Nat → Nat → List Char
  | 0, _ => []
  | fuel + 1, u =>
    if u < 10 then [digitChar u] else natDigits fuel (u / 10) ++ [digitChar (u % 10)]

/-- Go's `appendInt`: the decimal form of `x`, padded with zeros to at least `width` digits. -/
def appendInt (x : Int) (width : Nat) : List Char :=
  let ds := natDigits (x.natAbs + 1) x.natAbs
  (if x < 0 then ['-'] else []) ++ List.replicate (width - ds.length) '0' ++ ds

/-- The buffer of Go's `formatNano`: the last `width` decimal digits of `u`. -/
def digitsFixed : Nat → Nat → List Char
  | 0, _ => []
  | width + 1, u => digitsFixed width (u / 10) ++ [digitChar (u % 10)]

/-- Go's `formatNano(b, nsec, 9, true)`: a full stop and nine digits without their trailing
zeros, or nothing when all nine are zero. -/
def formatNano (nsec : Nat) : List Char :=
  let buf := ((digitsFixed 9 nsec).reverse.dropWhile (fun c => c == '0')).reverse
  if buf.isEmpty then [] else '.' :: buf

/-- The zone of the layout element `Z07:00`: `Z` for offset 0, else sign, hours, minutes of the
offset cut to whole minutes (towards zero). -/
def formatZone (offset : Int) : List Char :=
  if offset = 0 then ['Z']
  else
    let zone := offset.natAbs / 60
    (if offset < 0 ∧ zone ≠ 0 then '-' else '+') ::
      (appendInt (zone / 60 : Nat) 2 ++ ':' :: appendInt (zone % 60 : Nat) 2)

/-- The call `t.Format(time.RFC3339Nano)`. -/
def formatRFC3339Nano (t : Time) : List Char :=
  appendInt t.year 4 ++ '-' :: (appendInt t.month 2 ++ '-' :: (appendInt t.day 2 ++ 'T' ::
    (appendInt t.hour 2 ++ ':' :: (appendInt t.minute 2 ++ ':' :: (appendInt t.second 2 ++
      (formatNano t.nsec ++ formatZone t.offset))))))

/-- Go `Time.MarshalJSON`: the text of the JSON string, or the error for a year outside
`[0, 9999]`. -/
def Time.MarshalJSON (t : Time) : Except String String :=
  if t.year < 0 ∨ t.year ≥ 10000 then
    .error "Time.MarshalJSON: year outside of range [0,9999]"
  else .ok (String.mk (formatRFC3339Nano t))

/-- Reads a number of exactly `width` digits. -/
def takeNumber (width : Nat) (s : List Char) : Option (Nat × List Char) :=
  if width ≤ s.length ∧ (s.take width).all isDigit = true then
    some (decimalValue (s.take width), s.drop width)
  else none

/-- Reads the literal character `c`. -/
def takeChar (c : Char) : List Char → Option (List Char)
  | [] => none
  | x :: rest => if x = c then some rest else none

/-- Reads the optional fraction of a second, in nanoseconds. -/
def takeFraction (s : List Char) : Option (Nat × List Char) :=
  match s with
  | '.' :: rest =>
    let ds := rest.takeWhile isDigit
    if ds.isEmpty ∨ 9 < ds.length then none
    else some (decimalValue ds * 10 ^ (9 - ds.length), rest.dropWhile isDigit)
  | _ => some (0, s)

/-- Reads the zone up to the end of the text, as an offset in seconds. -/
def takeZone (s : List Char) : Option Int :=
  match s with
  | ['Z'] => some 0
  | sign :: rest =>
    if sign = '+' ∨ sign = '-' then
      match takeNumber 2 rest with
      | none => none
      | some (hh, rest1) =>
        match takeChar ':' rest1 with
        | none => none
        | some rest2 =>
          match takeNumber 2 rest2 with
          | some (mm, []) =>
            if 24 < hh ∨ 60 < mm then none
            else some (if sign = '-' then -(((hh * 60 + mm) * 60 : Nat) : Int)
              else (((hh * 60 + mm) * 60 : Nat) : Int))
          | _ => none
    else none
  | [] => none

/-- Go's `daysIn`: the number of days of a month. -/
def daysIn (month : Nat) (year : Int) : Nat :=
  if month = 2 then
    if year % 4 = 0 ∧ (year % 100 ≠ 0 ∨ year % 400 = 0) then 29 else 28
  else if month = 4 ∨ month = 6 ∨ month = 9 ∨ month = 11 then 30
  else 31

/-- The two layouts that `Convert` uses. -/
inductive Layout
  | RFC3339
  | RFC3339Nano
deriving DecidableEq, Repr

/-- The timestamp grammar shared by both layouts. -/
def parseTimestamp (s : List Char) : Option Time :=
  match takeNumber 4 s with
  | none => none
  | some (year, s) =>
  match takeChar '-' s with
  | none => none
  | some s =>
  match takeNumber 2 s with
  | none => none
  | some (month, s) =>
  match takeChar '-' s with
  | none => none
  | some s =>
  match takeNumber 2 s with
  | none => none
  | some (day, s) =>
  match takeChar 'T' s with
  | none => none
  | some s =>
  match takeNumber 2 s with
  | none => none
  | some (hour, s) =>
  match takeChar ':' s with
  | none => none
  | some s =>
  match takeNumber 2 s with
  | none => none
  | some (minute, s) =>
  match takeChar ':' s with
  | none => none
  | some s =>
  match takeNumber 2 s with
  | none => none
  | some (second, s) =>
  match takeFraction s with
  | none => none
  | some (nsec, s) =>
  match takeZone s with
  | none => none
  | some offset =>
    if 1 ≤ month ∧ month ≤ 12 ∧ 1 ≤ day ∧ day ≤ daysIn month year ∧ hour < 24 ∧ minute < 60 ∧
        second < 60 then
      some { year := year, month := month, day := day, hour := hour, minute := minute,
             second := second, nsec := nsec, offset := offset }
    else none

/-- The call `time.Parse(layout, value)` for `layout` one of `time.RFC3339`, `time.RFC3339Nano`. -/
def timeParse (_layout : Layout) (value : String) : Except String Time :=
  match parseTimestamp value.data with
  | some t => .ok t
  | none => .error ("parsing time " ++ value ++ ": cannot parse")

/-- The invariants of a `time.Time`: a calendar date and a clock reading. -/
def Time.Valid (t : Time) : Prop :=
  1 ≤ t.month ∧ t.month ≤ 12 ∧ 1 ≤ t.day ∧ t.day ≤ daysIn t.month t.year ∧ t.hour < 24 ∧
    t.minute < 60 ∧ t.second < 60 ∧ t.nsec < 10 ^ 9

/-- A time that RFC 3339 can write: the year has four digits and the zone offset is a whole
number of minutes of less than a day. -/
def Time.Writable (t : Time) : Prop :=
  0 ≤ t.year ∧ t.year < 10000 ∧ t.offset % 60 = 0 ∧ -86400 < t.offset ∧ t.offset < 86400

/-! ## Tombstones (`Tombstone`, `UnmodifiedTombstone`, `WriteToFile`, `ReadTombstone`)

The tombstone file is modelled by the JSON text it holds, as `encoding/json` reads it:
whitespace, the order of digits in a number and string escapes are below this level. -/

/-- Go `Tombstone`: `CurrentPos` is an `int64`, `Inode` a `uint64`. -/
structure Tombstone where
  CurrentPos : Int
  Date : Time
  LogLastMod : Time
  Inode : Nat
deriving DecidableEq, Repr

/-- Go `UnmodifiedTombstone`: the tombstone as the JSON decoder fills it. -/
structure UnmodifiedTombstone where
  CurrentPos : Int
  Date : String
  LogLastMod : String
  Inode : Nat
deriving DecidableEq, Repr

/-- The value of a member of a JSON object, as far as decoding into a field of type `int64`,
`uint64` or `string` looks at it.  `number none` is a number written with a fraction or an
exponent. -/
inductive JSONValue
  | null
  | bool (b : Bool)
  | number (integral : Option Int)
  | string (s : String)
  | array
  | object
deriving DecidableEq, Repr

/-- A JSON text. -/
inductive JSONText
  | null
  | bool (b : Bool)
  | number (integral : Option Int)
  | string (s : String)
  | array
  | object (members : List (String × JSONValue))
deriving DecidableEq, Repr

/-- The content of a file: bytes that are no JSON text, or a JSON text. -/
inductive Contents
  | garbage
  | json (text : JSONText)
deriving DecidableEq, Repr

/-- What is found at `TombstonePath`: no file (`none`) or a file with its content. -/
abbrev TombstoneFile := Option Contents

/-- How a call ends: with a value, with a Go error, or in a run-time panic. -/
inductive Outcome (α : Type)
  | ok (value : α)
  | error (err : String)
  | panic (msg : String)
deriving DecidableEq, Repr

/-- The fields of `UnmodifiedTombstone`. -/
inductive Field
  | CurrentPos
  | Date
  | LogLastMod
  | Inode
deriving DecidableEq, Repr

/-- The field that `encoding/json` picks for an object key: the field of that name, letter case
ignored. -/
def fieldOf (key : String) : Option Field :=
  let k := String.mk (key.data.map Char.toLower)
  if k = "currentpos" then some .CurrentPos
  else if k = "date" then some .Date
  else if k = "loglastmod" then some .LogLastMod
  else if k = "inode" then some .Inode
  else none

/-- The state of decoding an object: the struct so far and whether an `UnmarshalTypeError` was
saved. -/
structure Decoded where
  value : UnmodifiedTombstone
  failed : Bool
deriving DecidableEq, Repr

/-- Decoding of one object member: an unknown key is skipped, `null` leaves the field alone,
a value of the wrong kind or out of the range of the field's type saves an error. -/
def decodeMember (d : Decoded) (m : String × JSONValue) : Decoded :=
  match fieldOf m.1, m.2 with
  | none, _ => d
  | some _, .null => d
  | some .CurrentPos, .number (some n) =>
    if -(2 ^ 63) ≤ n ∧ n < 2 ^ 63 then { d with value := { d.value with CurrentPos := n } }
    else { d with failed := true }
  | some .Inode, .number (some n) =>
    if 0 ≤ n ∧ n < 2 ^ 64 then { d with value := { d.value with Inode := n.toNat } }
    else { d with failed := true }
  | some .Date, .string s => { d with value := { d.value with Date := s } }
  | some .LogLastMod, .string s => { d with value := { d.value with LogLastMod := s } }
  | some _, _ => { d with failed := true }

/-- The call `json.Unmarshal(contents, &t)` for `var t *UnmodifiedTombstone`: `null` leaves the pointer
nil (`none`), an object fills a new struct, any other text is an error. -/
def jsonUnmarshal (contents : Contents) : Except String (Option UnmodifiedTombstone) :=
  match contents with
  | .garbage => .error "invalid character"
  | .json .null => .ok none
  | .json (.object members) =>
    let d := members.foldl decodeMember
      { value := { CurrentPos := 0, Date := "", LogLastMod := "", Inode := 0 }, failed := false }
    if d.failed then .error "json: cannot unmarshal into Go struct field"
    else .ok (some d.value)
  | .json _ => .error "json: cannot unmarshal into Go value of type main.UnmodifiedTombstone"

/-- The call `json.Marshal(t)` for a `*Tombstone`: the fields in declaration order, the times through
`Time.MarshalJSON`. -/
def jsonMarshal (t : Tombstone) : Except String JSONText :=
  match t.Date.MarshalJSON with
  | .error err => .error ("json: error calling MarshalJSON for type time.Time: " ++ err)
  | .ok date =>
    match t.LogLastMod.MarshalJSON with
    | .error err => .error ("json: error calling MarshalJSON for type time.Time: " ++ err)
    | .ok logLastMod =>
      .ok (.object [("CurrentPos", .number (some t.CurrentPos)), ("Date", .string date),
        ("LogLastMod", .string logLastMod), ("Inode", .number (some (t.Inode : Int)))])

/-- Go `TombstoneExists`. -/
def TombstoneExists (file : TombstoneFile) : Bool := file.isSome

/-- Go `Tombstone.WriteToFile`: the file afterwards and the returned error.  The write itself is
taken to succeed. -/
def Tombstone.WriteToFile (t : Tombstone) (file : TombstoneFile) :
    TombstoneFile × Option String :=
  match jsonMarshal t with
  | .error err => (file, some err)
  | .ok tombstoneJSON => (some (.json tombstoneJSON), none)

/-- Go `UnmodifiedTombstone.Convert` on the pointer `u`; `none` is the nil pointer, whose field
`u.Date` cannot be read. -/
def UnmodifiedTombstone.Convert (u : Option UnmodifiedTombstone) : Outcome Tombstone :=
  match u with
  | none => .panic "runtime error: invalid memory address or nil pointer dereference"
  | some u =>
    match timeParse .RFC3339Nano u.Date with
    | .error err => .error err
    | .ok parsedDate =>
      match timeParse .RFC3339 u.LogLastMod with
      | .error err => .error err
      | .ok parsedLogLastMod =>
        .ok { CurrentPos := u.CurrentPos, Date := parsedDate, LogLastMod := parsedLogLastMod,
              Inode := u.Inode }

/-- Go `ReadTombstone`. -/
def ReadTombstone (file : TombstoneFile) : Outcome Tombstone :=
  match file with
  | none => .error "open /tmp/condor-log-monitor.tombstone: no such file or directory"
  | some contents =>
    match jsonUnmarshal contents with
    | .error err => .error err
    | .ok t => UnmodifiedTombstone.Convert t

/-! ## `main` -/

/-- What `main` finds around it. `openFile` gives, for a path, the error of `os.Open` or the
content of the file; `liveLines` are the lines that
`tail.TailFile(cfg.EventLog, tail.Config{ReOpen, Follow, Poll})` delivers, which are the lines
of the live log from its first byte on, as the configuration names no `Location`; `sortSort`
is `sort.Sort`. -/
structure World where
  tombstoneFile : TombstoneFile
  logDir : String
  logFilename : String
  readDir : Except String (List FileInfo)
  openFile : String → Except String String
  liveLines : List String
  pub : Nat → Option String
  sortSort : LogfileList → LogfileList

/-- What `main` does, as seen from outside. -/
inductive Effect
  | parseFile (path : String)
  | tailFile (path : String)
  | publish (event : String)
deriving DecidableEq, Repr

/-- The number of publish attempts in a trace. -/
def publishCount (trace : List Effect) : Nat :=
  (trace.filter (fun e => match e with | .publish _ => true | _ => false)).length

/-- The call `path.Join(dir, name)` for a clean directory and a file name. -/
def pathJoin (dir name : String) : String := dir ++ "/" ++ name

/-- The loop of `main` over the log list: every file but the one named like the live log is
handed to `ParseEventFile`. -/
def replayBacklog (w : World) : List Logfile → List Effect → List Effect
  | [], trace => trace
  | logFile :: rest, trace =>
    if logFile.Info.Name = w.logFilename then replayBacklog w rest trace
    else
      let logfilePath := pathJoin logFile.BaseDir logFile.Info.Name
      match w.openFile logfilePath with
      | .error _ => replayBacklog w rest (trace ++ [.parseFile logfilePath])
      | .ok file =>
        let seg := ParseEventFile (fun k => w.pub (publishCount trace + k)) file
        replayBacklog w rest
          (trace ++ [.parseFile logfilePath] ++ seg.published.map Effect.publish)

/-- The outcome of a run of `main`'s goroutine: whether it panicked, what it did, and the
tombstone file it leaves. -/
structure Run where
  panicked : Bool
  trace : List Effect
  tombstoneFile : TombstoneFile
deriving DecidableEq, Repr

/-- The part of `main` after the tombstone has been read. -/
def mainWith (w : World) (tombstone : Option Tombstone) : Run :=
  let logList : LogfileList :=
    match NewLogfileList w.readDir w.logDir w.logFilename with
    | .error _ => []
    | .ok logList => logList
  let logList := w.sortSort logList
  let logList :=
    match tombstone with
    | some t => if logList.length > 0 then LogfileList.SliceByInode logList t.Inode else logList
    | none => logList
  let trace := replayBacklog w logList []
  let seg := ParseEvent (fun k => w.pub (publishCount trace + k)) w.liveLines
  { panicked := false,
    trace := trace ++ [.tailFile (pathJoin w.logDir w.logFilename)]
      ++ seg.published.map Effect.publish,
    tombstoneFile := w.tombstoneFile }

/-- The goroutine of `main`, after configuration and connection. -/
def main (w : World) : Run :=
  if TombstoneExists w.tombstoneFile then
    match ReadTombstone w.tombstoneFile with
    | .ok tombstone => mainWith w (some tombstone)
    | .error _ => mainWith w none
    | .panic _ => { panicked := true, trace := [], tombstoneFile := w.tombstoneFile }
  else mainWith w none

/-- A stand-in for `sort.Sort`: insertion sort with `Less`. -/
def insertionSort (l : LogfileList) : LogfileList :=
  l.insertionSort (fun a b => lessNames a.Info.Name b.Info.Name = true)

/-- A tombstone whose `Date` lies in the year 10000. -/
def farFutureTombstone : Tombstone :=
  { CurrentPos := 10, Date := { Time.epoch with year := 10000 }, LogLastMod := Time.epoch,
    Inode := 5 }

/-- A tombstone taken on 9 March 2015 in a zone seven hours west of UTC, of a log last modified
120 ms after 14:04:59 UTC. -/
def sampleTombstone : Tombstone :=
  { CurrentPos := 10,
    Date := { year := 2015, month := 3, day := 9, hour := 7, minute := 5, second := 0,
              nsec := 123456789, offset := -25200 },
    LogLastMod := { year := 2015, month := 3, day := 9, hour := 14, minute := 4, second := 59,
                    nsec := 120000000, offset := 0 },
    Inode := 5 }

/-- A log directory with the live log `evt` (inode 5, two events) and one rotated file `evt.1`
(inode 4, one event), a broker that accepts everything, and the given tombstone file. -/
def exampleWorld (file : TombstoneFile) : World :=
  { tombstoneFile := file,
    logDir := "/var/log/condor",
    logFilename := "evt",
    readDir := .ok [{ Name := "evt", ModTime := Time.epoch, Ino := 5 },
                    { Name := "evt.1", ModTime := Time.epoch, Ino := 4 }],
    openFile := fun path =>
      if path = "/var/log/condor/evt.1" then .ok "100 old\n...\n"
      else .error "no such file or directory",
    liveLines := ["100 a", "...", "200 b", "..."],
    pub := fun _ => none,
    sortSort := insertionSort }

/-! ## Reconnection (`Connect`, `SetupReconnection`)

The goroutines that touch `errorChan` are `main`, in its call `pub.Connect(errChan)`, and the
goroutine that `SetupReconnection` starts (the supervisor).  `errorChan` is made without a
buffer, so a send on it completes only together with a receive in another goroutine.  The
amqp library writes the error of an abnormal closure to the channel registered with
`NotifyClose` and then closes that channel; a graceful closure only closes it.  The
close-notification channels are numbered in the order of their registration.  The system
moves by interleaving the steps of the goroutines and of the library. -/

/-- Where a call of `Connect` stands: before its send (`amqp.Dial`, `Channel`,
`ExchangeDeclare`, `NotifyClose`), or at `errorChan <- msg` with `msg.channel = ch`. -/
inductive ConnectPC
  | dialing
  | sending (ch : Nat)
deriving DecidableEq, Repr

/-- Where `main` stands: in `pub.Connect(errChan)`, after `os.Exit(-1)`, or past `Connect`. -/
inductive MainPC
  | inConnect (c : ConnectPC)
  | exited
  | running
deriving DecidableEq, Repr

/-- Where the goroutine of `SetupReconnection` stands: at `msg := <-errorChan` (`reconfig` is
true), at the `select` on `exitChan`, or in `p.Connect(errorChan)` with `exitChan` still the
old channel. -/
inductive SupervisorPC
  | recvHandoff
  | selectClose (exitChan : Nat)
  | inConnect (c : ConnectPC) (exitChan : Nat)
deriving DecidableEq, Repr

/-- The state of a close-notification channel: nothing written yet; the library is at
`c <- err`; the error has been received and `close(c)` comes next; closed. -/
inductive NotifyChan
  | open
  | sendingErr
  | delivered
  | closed
deriving DecidableEq, Repr

/-- The two goroutines that use `errorChan`. -/
inductive Goroutine
  | main
  | supervisor
deriving DecidableEq, Repr

/-- The state of the system: the two goroutines, the number of connections made so far (each
with its close-notification channel), the channels, and the supervisor's calls of `Connect`
begun and returned. -/
structure Goroutines where
  main : MainPC
  sup : SupervisorPC
  conns : Nat
  notify : Nat → NotifyChan
  connectCalls : Nat
  connectReturns : Nat

/-- The state when `main` has called `SetupReconnection` and enters `Connect`. -/
def Goroutines.init : Goroutines :=
  { main := .inConnect .dialing, sup := .recvHandoff, conns := 0, notify := fun _ => .open,
    connectCalls := 0, connectReturns := 0 }

/-- The steps of the system.  `connected g` and `connectFailed g`: the part of `Connect`
before the send succeeds or fails in goroutine `g`; `handoff sender receiver`: a send and a
receive on `errorChan` meet; `abnormalClose k` and `gracefulClose k`: connection `k` goes
down with or without an error; `recvError`: the supervisor's `select` receives the error;
`closeNotify k`: the library closes channel `k` behind the error; `recvClosed`: the
supervisor's `select` finds `exitChan` closed. -/
inductive Action
  | connected (g : Goroutine)
  | connectFailed (g : Goroutine)
  | handoff (sender receiver : Goroutine)
  | abnormalClose (k : Nat)
  | gracefulClose (k : Nat)
  | recvError
  | closeNotify (k : Nat)
  | recvClosed
deriving DecidableEq, Repr

/-- The channel that a goroutine blocked at `errorChan <- msg` offers. -/
def Goroutines.offers (s : Goroutines) : Goroutine → Option Nat
  | .main =>
    match s.main with
    | .inConnect (.sending ch) => some ch
    | _ => none
  | .supervisor =>
    match s.sup with
    | .inConnect (.sending ch) _ => some ch
    | _ => none

/-- Whether a goroutine is blocked at a receive on `errorChan`.  The only receive on
`errorChan` in the program is `msg := <-errorChan` in the supervisor. -/
def Goroutines.receiving (s : Goroutines) : Goroutine → Bool
  | .main => false
  | .supervisor =>
    match s.sup with
    | .recvHandoff => true
    | _ => false

/-- The sender after its send: `Connect` returns nil.  In `main` the program goes on; in the
supervisor `reconfig` becomes false and the loop returns to the `select`. -/
def Goroutines.afterSend (s : Goroutines) : Goroutine → Goroutines
  | .main => { s with main := .running }
  | .supervisor =>
    match s.sup with
    | .inConnect _ exitChan =>
      { s with sup := .selectClose exitChan, connectReturns := s.connectReturns + 1 }
    | _ => s

/-- The receiver after its receive of `ch`: `exitChan = msg.channel`, then the `select`. -/
def Goroutines.afterReceive (s : Goroutines) (ch : Nat) : Goroutine → Goroutines
  | .main => s
  | .supervisor => { s with sup := .selectClose ch }

/-- One step of the system, `none` when the step cannot be taken in state `s`. -/
def step (s : Goroutines) (a : Action) : Option Goroutines :=
  if s.main = .exited then none
  else
    match a with
    | .connected .main =>
      match s.main with
      | .inConnect .dialing =>
        some { s with main := .inConnect (.sending s.conns), conns := s.conns + 1,
                      notify := Function.update s.notify s.conns .open }
      | _ => none
    | .connectFailed .main =>
      match s.main with
      | .inConnect .dialing => some { s with main := .exited }
      | _ => none
    | .connected .supervisor =>
      match s.sup with
      | .inConnect .dialing exitChan =>
        some { s with sup := .inConnect (.sending s.conns) exitChan, conns := s.conns + 1,
                      notify := Function.update s.notify s.conns .open }
      | _ => none
    | .connectFailed .supervisor =>
      match s.sup with
      | .inConnect .dialing exitChan =>
        some { s with sup := .selectClose exitChan, connectReturns := s.connectReturns + 1 }
      | _ => none
    | .handoff sender receiver =>
      match s.offers sender with
      | some ch =>
        if sender ≠ receiver ∧ s.receiving receiver = true then
          some ((s.afterSend sender).afterReceive ch receiver)
        else none
      | none => none
    | .abnormalClose k =>
      if k < s.conns ∧ s.notify k = .open then
        some { s with notify := Function.update s.notify k .sendingErr }
      else none
    | .gracefulClose k =>
      if k < s.conns ∧ s.notify k = .open then
        some { s with notify := Function.update s.notify k .closed }
      else none
    | .recvError =>
      match s.sup with
      | .selectClose exitChan =>
        if s.notify exitChan = .sendingErr then
          some { s with sup := .inConnect .dialing exitChan,
                        notify := Function.update s.notify exitChan .delivered,
                        connectCalls := s.connectCalls + 1 }
        else none
      | _ => none
    | .closeNotify k =>
      if s.notify k = .delivered then
        some { s with notify := Function.update s.notify k .closed }
      else none
    | .recvClosed =>
      match s.sup with
      | .selectClose exitChan =>
        if s.notify exitChan = .closed then some { s with sup := .recvHandoff } else none
      | _ => none

/-- The state after a schedule of steps, `none` when one of them cannot be taken. -/
def runSchedule : Goroutines → List Action → Option Goroutines
  | s, [] => some s
  | s, a :: rest =>
    match step s a with
    | none => none
    | some s' => runSchedule s' rest

/-- What a state shows of the supervisor: where it stands and its calls of `Connect` begun
and returned. -/
def Goroutines.supervisorView (s : Goroutines) : SupervisorPC × Nat × Nat :=
  (s.sup, s.connectCalls, s.connectReturns)

/-- The start of the program followed by one abnormal closure with a successful reconnect:
`main` connects and hands the channel 0 over, connection 0 breaks, the supervisor receives
the error and its `Connect` makes connection 1. -/
def firstClosure : List Action :=
  [.connected .main, .handoff .main .supervisor, .abnormalClose 0, .recvError, .closeNotify 0,
   .connected .supervisor]

/-- The invariant of the runs from `Goroutines.init`: the supervisor has called `Connect` at
most once; while `main` is in `Connect` the supervisor waits for the handoff and has called
nothing; while the supervisor is in `Connect`, its one call has not returned; and once it has
called `Connect`, its `exitChan` is a registered channel whose error is not pending any
more. -/
def Inv (s : Goroutines) : Prop :=
  s.connectCalls ≤ 1 ∧ s.connectReturns ≤ s.connectCalls ∧
  (∀ c, s.main = .inConnect c → s.sup = .recvHandoff ∧ s.connectCalls = 0) ∧
  (∀ ch, s.main = .inConnect (.sending ch) → ch < s.conns) ∧
  (∀ c e, s.sup = .inConnect c e → s.connectCalls = 1 ∧ s.connectReturns = 0 ∧ e < s.conns ∧
    s.notify e ≠ .sendingErr ∧ s.notify e ≠ .open) ∧
  (∀ e, s.sup = .selectClose e → e < s.conns ∧
    (s.connectCalls = 1 → s.notify e ≠ .sendingErr ∧ s.notify e ≠ .open))

/-! ## Theorems -/

/-! ### Segmenter -/

theorem foldl_segmentLine_published (pub : Nat → Option String) (lines : List String) :
    ∀ s : Segmenter, (lines.foldl (segmentLine pub) s).published
      = s.published ++ emitted s.foundStart s.eventlines lines := by
  induction lines with
  | nil => intro s; cases h : s.foundStart <;> simp [emitted]
  | cons l ls ih =>
    intro s
    rw [List.foldl_cons, ih]
    cases hs : s.foundStart
    · by_cases hm : matchStart l = true
      · simp [segmentLine, hs, hm, emitted]
      · simp [segmentLine, hs, hm, emitted]
    · by_cases hm : matchEnd l = true
      · simp [segmentLine, hs, hm, emitted]
      · simp [segmentLine, hs, hm, emitted]

theorem ParseEvent_published (pub : Nat → Option String) (lines : List String) :
    (ParseEvent pub lines).published = emitted false "" lines := by
  simp [ParseEvent, foldl_segmentLine_published, Segmenter.init]

theorem emitted_length (lines : List String) :
    ∀ (b : Bool) (acc : String), (emitted b acc lines).length
      = endMarkersWhileAccumulating (if b then .Accumulating else .Idle) lines := by
  induction lines with
  | nil => intro b acc; simp [emitted, endMarkersWhileAccumulating]
  | cons l ls ih =>
    intro b acc
    cases b
    · by_cases hm : matchStart l = true
      · simp [emitted, endMarkersWhileAccumulating, SegState.next, hm, ih]
      · simp [emitted, endMarkersWhileAccumulating, SegState.next, hm, ih]
    · by_cases hm : matchEnd l = true
      · simp [emitted, endMarkersWhileAccumulating, SegState.next, hm, ih]; omega
      · simp [emitted, endMarkersWhileAccumulating, SegState.next, hm, ih]

theorem emitted_append_noEnd (trailing : List String)
    (h : ∀ l ∈ trailing, matchEnd l = false) (lines : List String) :
    ∀ (b : Bool) (acc : String), emitted b acc (lines ++ trailing) = emitted b acc lines := by
  have key : ∀ (t : List String), (∀ l ∈ t, matchEnd l = false) →
      ∀ (b : Bool) (acc : String), emitted b acc t = [] := by
    intro t
    induction t with
    | nil => intro _ b acc; simp [emitted]
    | cons l ls ih =>
      intro ht b acc
      have hl : matchEnd l = false := ht l (by simp)
      have hls : ∀ x ∈ ls, matchEnd x = false := fun x hx => ht x (by simp [hx])
      cases b
      · by_cases hm : matchStart l = true
        · simp [emitted, hm, ih hls]
        · simp [emitted, hm, ih hls]
      · simp [emitted, hl, ih hls]
  induction lines with
  | nil => intro b acc; simp [key trailing h, emitted]
  | cons l ls ih =>
    intro b acc
    cases b
    · by_cases hm : matchStart l = true
      · simp [emitted, hm, ih]
      · simp [emitted, hm, ih]
    · by_cases hm : matchEnd l = true
      · simp [emitted, hm, ih]
      · simp [emitted, hm, ih]

theorem emitted_skip_noise (noise : List String)
    (h : ∀ l ∈ noise, matchStart l = false) (rest : List String) (acc : String) :
    emitted false acc (noise ++ rest) = emitted false acc rest := by
  induction noise with
  | nil => simp
  | cons l ls ih =>
    have hl : matchStart l = false := h l (by simp)
    have hls : ∀ x ∈ ls, matchStart x = false := fun x hx => h x (by simp [hx])
    simp [emitted, hl, ih hls]

theorem emitted_close (body : List String) (h : ∀ l ∈ body, matchEnd l = false)
    (e : String) (he : matchEnd e = true) (rest : List String) :
    ∀ acc : String, emitted true acc (body ++ e :: rest)
      = (acc ++ eventText (body ++ [e])) :: emitted false "" rest := by
  induction body with
  | nil => intro acc; simp [emitted, he, eventText, String.append_assoc]
  | cons l ls ih =>
    intro acc
    have hl : matchEnd l = false := h l (by simp)
    have hls : ∀ x ∈ ls, matchEnd x = false := fun x hx => h x (by simp [hx])
    simp [emitted, hl, ih hls, eventText, String.append_assoc]

theorem emitted_span (noise : List String) (hn : ∀ l ∈ noise, matchStart l = false)
    (s : String) (hs : matchStart s = true)
    (body : List String) (hb : ∀ l ∈ body, matchEnd l = false)
    (e : String) (he : matchEnd e = true) (rest : List String) :
    emitted false "" (noise ++ (s :: (body ++ (e :: rest))))
      = eventText (s :: (body ++ [e])) :: emitted false "" rest := by
  rw [emitted_skip_noise noise hn]
  simp [emitted, hs, emitted_close body hb e he rest, eventText, String.append_assoc]

/-! ### `bufio.Reader` and the loop of `ParseEventFile` -/

theorem indexByte_bound (c : Char) (l : List Char) :
    ∀ k i, indexByte c l k = some i → k ≤ i ∧ i < k + l.length := by
  induction l with
  | nil => intro k i h; simp [indexByte] at h
  | cons x xs ih =>
    intro k i h
    by_cases hx : x = c
    · simp only [indexByte, hx, if_true, Option.some.injEq] at h
      subst h
      simp
    · simp only [indexByte, hx, if_false] at h
      have := ih (k + 1) i h
      simp only [List.length_cons]
      omega

theorem ReadSlice_found (n : Nat) (b : Reader) (i : Nat)
    (h : indexByte '\n' ((b.buf.drop b.r).take (b.w - b.r)) 0 = some i) :
    Reader.ReadSlice (n + 1) b = ({ b with r := b.r + i + 1 }, ⟨b.r, i + 1⟩, .none) := by
  rw [Reader.ReadSlice, h]

theorem ReadSlice_eof (n : Nat) (b : Reader)
    (h : indexByte '\n' ((b.buf.drop b.r).take (b.w - b.r)) 0 = none) (he : b.err = true) :
    Reader.ReadSlice (n + 1) b = ({ b with r := b.w, err := false }, ⟨b.r, b.w - b.r⟩, .eof) := by
  rw [Reader.ReadSlice, h]
  simp only [he, if_true]

theorem ReadSlice_full (n : Nat) (b : Reader)
    (h : indexByte '\n' ((b.buf.drop b.r).take (b.w - b.r)) 0 = none) (he : b.err = false)
    (hf : b.buf.length ≤ b.w - b.r) :
    Reader.ReadSlice (n + 1) b = ({ b with r := b.w }, ⟨0, b.buf.length⟩, .bufferFull) := by
  rw [Reader.ReadSlice, h]
  simp only [he, hf, if_true, Bool.false_eq_true, if_false]

theorem ReadSlice_fill (n : Nat) (b : Reader)
    (h : indexByte '\n' ((b.buf.drop b.r).take (b.w - b.r)) 0 = none) (he : b.err = false)
    (hf : ¬ b.buf.length ≤ b.w - b.r) :
    Reader.ReadSlice (n + 1) b = Reader.ReadSlice n b.fill := by
  rw [Reader.ReadSlice, h]
  simp only [he, hf, if_false, Bool.false_eq_true]

/-- What `fill` does to the positions of a reader whose buffer has room. -/
theorem fill_spec (b : Reader) (hr : b.r ≤ b.w) (hw : b.w ≤ b.buf.length)
    (hroom : b.w - b.r < b.buf.length) :
    b.fill.buf.length = b.buf.length ∧ b.fill.r = 0 ∧ b.fill.w ≤ b.buf.length ∧
      b.fill.unread = b.unread ∧
      (b.rd = [] → b.fill.err = true ∧ b.fill.rd = []) ∧
      (b.rd ≠ [] → b.fill.err = b.err ∧ (b.fill.w < b.buf.length → b.fill.rd = [])) := by
  have hlen : b.rd = [] ↔ b.rd.length = 0 := List.length_eq_zero.symm
  unfold Reader.fill Reader.unread
  by_cases hpos : b.r > 0
  · simp only [hpos, if_true]
    split
    · rename_i hn
      simp only [List.length_append, List.length_take, List.length_drop] at hn ⊢
      have h0 : b.rd.length = 0 := by omega
      refine ⟨by omega, trivial, by omega, by omega, fun _ => ⟨trivial, hlen.2 h0⟩,
        fun hne => absurd (hlen.2 h0) hne⟩
    · rename_i hn
      simp only [List.length_append, List.length_take, List.length_drop] at hn ⊢
      refine ⟨by omega, trivial, by omega, by omega, fun he => ?_, fun _ => ⟨trivial, fun hlt => ?_⟩⟩
      · have := hlen.1 he
        omega
      · apply List.length_eq_zero.1
        simp only [List.length_drop]
        omega
  · have hr0 : b.r = 0 := by omega
    simp only [hpos, if_false]
    split
    · rename_i hn
      have h0 : b.rd.length = 0 := by omega
      refine ⟨rfl, hr0, hw, rfl, fun _ => ⟨rfl, hlen.2 h0⟩,
        fun hne => absurd (hlen.2 h0) hne⟩
    · rename_i hn
      simp only [List.length_append, List.length_take, List.length_drop] at hn ⊢
      refine ⟨by omega, hr0, by omega, by omega, fun he => ?_, fun _ => ⟨trivial, fun hlt => ?_⟩⟩
      · have := hlen.1 he
        omega
      · apply List.length_eq_zero.1
        simp only [List.length_drop]
        omega

theorem SliceRead_found (b : Reader) (hok : b.Ok) (i : Nat)
    (h : indexByte '\n' ((b.buf.drop b.r).take (b.w - b.r)) 0 = some i) :
    Reader.SliceRead b.unread ({ b with r := b.r + i + 1 }, ⟨b.r, i + 1⟩, .none) := by
  obtain ⟨hl, hr, hw, he⟩ := hok
  have hi := (indexByte_bound _ _ 0 i h).2
  simp only [List.length_take, List.length_drop] at hi
  refine ⟨⟨hl, ?_, hw, he⟩, ?_, ?_⟩
  · show b.r + i + 1 ≤ b.w
    omega
  · show b.r + (i + 1) ≤ defaultBufSize
    omega
  · show (b.w - (b.r + i + 1)) + b.rd.length < (b.w - b.r) + b.rd.length
    omega

theorem SliceRead_eof (b : Reader) (hok : b.Ok) (he : b.err = true) :
    Reader.SliceRead b.unread ({ b with r := b.w, err := false }, ⟨b.r, b.w - b.r⟩, .eof) := by
  obtain ⟨hl, hr, hw, hrd⟩ := hok
  have h0 : b.rd.length = 0 := by rw [hrd he]; rfl
  refine ⟨⟨hl, Nat.le_refl _, hw, fun hf => absurd hf (by simp)⟩, ?_, ?_, ?_⟩
  · show b.r + (b.w - b.r) ≤ defaultBufSize
    omega
  · show (b.w - b.w) + b.rd.length = 0
    omega
  · show b.w - b.r = (b.w - b.r) + b.rd.length
    omega

theorem SliceRead_full (b : Reader) (hok : b.Ok) (hf : b.buf.length ≤ b.w - b.r) :
    Reader.SliceRead b.unread ({ b with r := b.w }, ⟨0, b.buf.length⟩, .bufferFull) := by
  obtain ⟨hl, hr, hw, hrd⟩ := hok
  refine ⟨⟨hl, Nat.le_refl _, hw, hrd⟩, ?_, ?_, ?_, ?_⟩
  · show 0 + b.buf.length ≤ defaultBufSize
    omega
  · show (b.w - b.w) + b.rd.length + defaultBufSize = (b.w - b.r) + b.rd.length
    omega
  · show b.w = defaultBufSize
    omega
  · show b.w = defaultBufSize
    omega

/-- With an error pending, `ReadSlice` returns in its first round. -/
theorem ReadSlice_pending (b : Reader) (hok : b.Ok) (he : b.err = true) (n : Nat) :
    Reader.ReadSlice (n + 1) b = Reader.ReadSlice 1 b ∧
      Reader.SliceRead b.unread (Reader.ReadSlice (n + 1) b) := by
  cases h : indexByte '\n' ((b.buf.drop b.r).take (b.w - b.r)) 0 with
  | some i =>
    rw [ReadSlice_found n b i h, ReadSlice_found 0 b i h]
    exact ⟨rfl, SliceRead_found b hok i h⟩
  | none =>
    rw [ReadSlice_eof n b h he, ReadSlice_eof 0 b h he]
    exact ⟨rfl, SliceRead_eof b hok he⟩

/-- After a `fill` that took bytes of the file, `ReadSlice` returns within two rounds. -/
theorem ReadSlice_filled (b : Reader) (hok : b.Ok) (hr0 : b.r = 0) (he : b.err = false)
    (hrest : b.w < b.buf.length → b.rd = []) (n : Nat) :
    Reader.ReadSlice (n + 2) b = Reader.ReadSlice 2 b ∧
      Reader.SliceRead b.unread (Reader.ReadSlice (n + 2) b) := by
  cases h : indexByte '\n' ((b.buf.drop b.r).take (b.w - b.r)) 0 with
  | some i =>
    rw [ReadSlice_found (n + 1) b i h, ReadSlice_found 1 b i h]
    exact ⟨rfl, SliceRead_found b hok i h⟩
  | none =>
    by_cases hf : b.buf.length ≤ b.w - b.r
    · rw [ReadSlice_full (n + 1) b h he hf, ReadSlice_full 1 b h he hf]
      exact ⟨rfl, SliceRead_full b hok hf⟩
    · rw [ReadSlice_fill (n + 1) b h he hf, ReadSlice_fill 1 b h he hf]
      obtain ⟨hl, hr, hw, _⟩ := hok
      have hrd : b.rd = [] := hrest (by omega)
      obtain ⟨fl, fr, fw, fu, fe, _⟩ := fill_spec b hr hw (by omega)
      have fok : b.fill.Ok := ⟨by rw [fl]; exact hl, by omega, by rw [fl]; exact fw,
        fun _ => (fe hrd).2⟩
      have := ReadSlice_pending b.fill fok (fe hrd).1 n
      rw [fu] at this
      exact ⟨this.1.trans (ReadSlice_pending b.fill fok (fe hrd).1 0).1.symm, this.2⟩

/-- Three rounds are enough for `ReadSlice`: more rounds give the same result, and the
result is a slice inside the buffer with fewer bytes left unread. -/
theorem ReadSlice_rounds (b : Reader) (hok : b.Ok) (n : Nat) :
    Reader.ReadSlice (n + 3) b = Reader.ReadSlice 3 b ∧
      Reader.SliceRead b.unread (Reader.ReadSlice (n + 3) b) := by
  by_cases he : b.err = true
  · have h1 := ReadSlice_pending b hok he (n + 2)
    exact ⟨h1.1.trans (ReadSlice_pending b hok he 2).1.symm, h1.2⟩
  · have he : b.err = false := by simpa using he
    cases h : indexByte '\n' ((b.buf.drop b.r).take (b.w - b.r)) 0 with
    | some i =>
      rw [ReadSlice_found (n + 2) b i h, ReadSlice_found 2 b i h]
      exact ⟨rfl, SliceRead_found b hok i h⟩
    | none =>
      by_cases hf : b.buf.length ≤ b.w - b.r
      · rw [ReadSlice_full (n + 2) b h he hf, ReadSlice_full 2 b h he hf]
        exact ⟨rfl, SliceRead_full b hok hf⟩
      · rw [ReadSlice_fill (n + 2) b h he hf, ReadSlice_fill 2 b h he hf]
        obtain ⟨hl, hr, hw, _⟩ := hok
        obtain ⟨fl, fr, fw, fu, fe, fne⟩ := fill_spec b hr hw (by omega)
        by_cases hrd : b.rd = []
        · have fok : b.fill.Ok := ⟨by rw [fl]; exact hl, by omega, by rw [fl]; exact fw,
            fun _ => (fe hrd).2⟩
          have h1 := ReadSlice_pending b.fill fok (fe hrd).1 (n + 1)
          rw [fu] at h1
          exact ⟨h1.1.trans (ReadSlice_pending b.fill fok (fe hrd).1 1).1.symm, h1.2⟩
        · have fe2 : b.fill.err = false := (fne hrd).1.trans he
          have fok : b.fill.Ok := ⟨by rw [fl]; exact hl, by omega, by rw [fl]; exact fw,
            fun hf2 => absurd (fe2.symm.trans hf2) (by simp)⟩
          have h1 := ReadSlice_filled b.fill fok fr fe2 (by rw [fl]; exact (fne hrd).2) n
          rw [fu] at h1
          exact h1

/-- A call of `ReadLine` keeps the reader in order, returns a slice inside the buffer, and
unless it returns an error it leaves fewer bytes unread. -/
theorem ReadLine_spec (b : Reader) (hok : b.Ok) :
    b.ReadLine.1.Ok ∧ b.ReadLine.2.1.off + b.ReadLine.2.1.len ≤ defaultBufSize ∧
      (b.ReadLine.2.2.2 = false → b.ReadLine.1.unread < b.unread) := by
  have h := (ReadSlice_rounds b hok 0).2
  simp only [Nat.zero_add] at h
  unfold Reader.ReadLine
  rcases hres : b.ReadSlice 3 with ⟨b1, line, e⟩
  rw [hres] at h
  obtain ⟨⟨hl, hr, hw, hrd⟩, hin, hpost⟩ := h
  dsimp only at hl hr hw hrd hin hpost
  cases e with
  | bufferFull =>
    simp only at hpost ⊢
    obtain ⟨hu, hr1, hw1⟩ := hpost
    have hsz : 1 < defaultBufSize := by decide
    split
    · refine ⟨⟨hl, ?_, hw, hrd⟩, ?_, fun _ => ?_⟩
      · show b1.r - 1 ≤ b1.w
        omega
      · show line.off + (line.len - 1) ≤ defaultBufSize
        omega
      · show (b1.w - (b1.r - 1)) + b1.rd.length < b.unread
        unfold Reader.unread at hu ⊢
        omega
    · refine ⟨⟨hl, hr, hw, hrd⟩, hin, fun _ => ?_⟩
      show b1.unread < b.unread
      omega
  | none =>
    simp only at hpost ⊢
    split
    · exact ⟨⟨hl, hr, hw, hrd⟩, hin, fun _ => hpost⟩
    · split
      · split
        · refine ⟨⟨hl, hr, hw, hrd⟩, ?_, fun _ => hpost⟩
          show line.off + (line.len - 2) ≤ defaultBufSize
          omega
        · refine ⟨⟨hl, hr, hw, hrd⟩, ?_, fun _ => hpost⟩
          show line.off + (line.len - 1) ≤ defaultBufSize
          omega
      · exact ⟨⟨hl, hr, hw, hrd⟩, hin, fun _ => hpost⟩
  | eof =>
    simp only at hpost ⊢
    obtain ⟨hu0, hlen⟩ := hpost
    split
    · refine ⟨⟨hl, hr, hw, hrd⟩, hin, fun hf => ?_⟩
      simp at hf
    · rename_i hne
      split
      · split
        · refine ⟨⟨hl, hr, hw, hrd⟩, ?_, fun _ => ?_⟩
          · show line.off + (line.len - 2) ≤ defaultBufSize
            omega
          · show b1.unread < b.unread
            omega
        · refine ⟨⟨hl, hr, hw, hrd⟩, ?_, fun _ => ?_⟩
          · show line.off + (line.len - 1) ≤ defaultBufSize
            omega
          · show b1.unread < b.unread
            omega
      · refine ⟨⟨hl, hr, hw, hrd⟩, hin, fun _ => ?_⟩
        show b1.unread < b.unread
        omega

/-- The call `append(prefixBuffer, line...)` keeps the reader in order and its unread bytes. -/
theorem appendSlices_spec (b : Reader) (hok : b.Ok) (prefixBuffer line : Slice)
    (hin : line.off + line.len ≤ defaultBufSize) :
    (appendSlices b prefixBuffer line).1.Ok ∧
      (appendSlices b prefixBuffer line).1.unread = b.unread := by
  obtain ⟨hl, hr, hw, hrd⟩ := hok
  unfold appendSlices
  split
  · rename_i hc
    refine ⟨⟨?_, hr, ?_, hrd⟩, rfl⟩
    · show (b.buf.take _ ++ (b.bytes line ++ b.buf.drop _)).length = defaultBufSize
      simp only [Reader.bytes, List.length_append, List.length_take, List.length_drop]
      omega
    · show b.w ≤ (b.buf.take _ ++ (b.bytes line ++ b.buf.drop _)).length
      simp only [Reader.bytes, List.length_append, List.length_take, List.length_drop]
      omega
  · exact ⟨⟨hl, hr, hw, hrd⟩, rfl⟩

/-- The loop of `ParseEventFile` ends through `break`: with more rounds than the reader has
unread bytes the loop is left through `break`, and further rounds change nothing. -/
theorem ParseEventFile_loop_ends (pub : Nat → Option String) :
    ∀ (rounds : Nat) (reader : Reader) (prefixBuffer : Slice) (s : Segmenter),
      reader.Ok → reader.unread < rounds →
      (ParseEventFile.loop pub rounds reader prefixBuffer s).2 = true ∧
        ∀ k, ParseEventFile.loop pub (rounds + k) reader prefixBuffer s =
          ParseEventFile.loop pub rounds reader prefixBuffer s := by
  intro rounds
  induction rounds with
  | zero => intro reader _ _ _ hlt; omega
  | succ n ih =>
    intro reader prefixBuffer s hok hlt
    obtain ⟨hok1, hin, hdec⟩ := ReadLine_spec reader hok
    have hstep : ∀ m, ParseEventFile.loop pub (m + 1) reader prefixBuffer s =
        if reader.ReadLine.2.2.2 then (s, true)
        else if reader.ReadLine.2.2.1 then
          ParseEventFile.loop pub m reader.ReadLine.1 reader.ReadLine.2.1 s
        else
          ParseEventFile.loop pub m
            (if 0 < prefixBuffer.len then
              appendSlices reader.ReadLine.1 prefixBuffer reader.ReadLine.2.1
             else (reader.ReadLine.1, reader.ReadLine.1.bytes reader.ReadLine.2.1)).1 ⟨0, 0⟩
            (segmentLine pub s (String.mk
              (if 0 < prefixBuffer.len then
                appendSlices reader.ReadLine.1 prefixBuffer reader.ReadLine.2.1
               else (reader.ReadLine.1, reader.ReadLine.1.bytes reader.ReadLine.2.1)).2)) :=
      fun _ => rfl
    have hk : ∀ k, n + 1 + k = (n + k) + 1 := fun k => by omega
    by_cases herr : reader.ReadLine.2.2.2 = true
    · refine ⟨by rw [hstep, if_pos herr], fun k => ?_⟩
      rw [hk, hstep, hstep, if_pos herr, if_pos herr]
    · have herr : reader.ReadLine.2.2.2 = false := by simpa using herr
      have hlt1 : reader.ReadLine.1.unread < n := by
        have := hdec herr
        omega
      by_cases hmore : reader.ReadLine.2.2.1 = true
      · have := ih reader.ReadLine.1 reader.ReadLine.2.1 s hok1 hlt1
        refine ⟨?_, fun k => ?_⟩
        · rw [hstep, herr, hmore]
          exact this.1
        · rw [hk, hstep, hstep, herr, hmore]
          exact this.2 k
      · have hmore : reader.ReadLine.2.2.1 = false := by simpa using hmore
        have hg : (if 0 < prefixBuffer.len then
              appendSlices reader.ReadLine.1 prefixBuffer reader.ReadLine.2.1
             else (reader.ReadLine.1, reader.ReadLine.1.bytes reader.ReadLine.2.1)).1.Ok ∧
            (if 0 < prefixBuffer.len then
              appendSlices reader.ReadLine.1 prefixBuffer reader.ReadLine.2.1
             else (reader.ReadLine.1, reader.ReadLine.1.bytes reader.ReadLine.2.1)).1.unread =
              reader.ReadLine.1.unread := by
          split
          · exact appendSlices_spec _ hok1 _ _ hin
          · exact ⟨hok1, rfl⟩
        have := ih _ ⟨0, 0⟩ (segmentLine pub s (String.mk
              (if 0 < prefixBuffer.len then
                appendSlices reader.ReadLine.1 prefixBuffer reader.ReadLine.2.1
               else (reader.ReadLine.1, reader.ReadLine.1.bytes reader.ReadLine.2.1)).2))
            hg.1 (by rw [hg.2]; exact hlt1)
        refine ⟨?_, fun k => ?_⟩
        · rw [hstep, herr, hmore]
          exact this.1
        · rw [hk, hstep, hstep, herr, hmore]
          exact this.2 k

theorem NewReader_Ok (file : String) :
    (NewReader file).Ok ∧ (NewReader file).unread = file.length :=
  ⟨⟨List.length_replicate _ _, Nat.le_refl _, Nat.zero_le _, fun h => Bool.noConfusion h⟩,
    Nat.zero_add _⟩

/-- Go `ParseEventFile` reads every file to its end: the rounds of the model are enough for the
loop to be left through `break`, and more rounds give the same segmenter. -/
theorem ParseEventFile_ends (pub : Nat → Option String) (file : String) :
    (ParseEventFile.loop pub (file.length + 2) (NewReader file) ⟨0, 0⟩ Segmenter.init).2 = true ∧
      ∀ k, (ParseEventFile.loop pub (file.length + 2 + k) (NewReader file) ⟨0, 0⟩
          Segmenter.init).1 = ParseEventFile pub file := by
  have h := ParseEventFile_loop_ends pub (file.length + 2) (NewReader file) ⟨0, 0⟩
    Segmenter.init (NewReader_Ok file).1 (by rw [(NewReader_Ok file).2]; omega)
  exact ⟨h.1, fun k => by rw [h.2 k]; rfl⟩

theorem indexByte_none (c : Char) (l : List Char) (h : c ∉ l) : ∀ k, indexByte c l k = none := by
  induction l with
  | nil => intro k; rfl
  | cons x xs ih =>
    intro k
    have hx : x ≠ c := fun e => h (by simp [e])
    simp only [indexByte, hx, if_false]
    exact ih (fun hm => h (List.mem_cons_of_mem _ hm)) (k + 1)

theorem indexByte_first (c : Char) (p q : List Char) (h : c ∉ p) :
    ∀ k, indexByte c (p ++ c :: q) k = some (k + p.length) := by
  induction p with
  | nil => intro k; simp [indexByte]
  | cons x xs ih =>
    intro k
    have hx : x ≠ c := fun e => h (by simp [e])
    simp only [List.cons_append, indexByte, hx, if_false, List.length_cons]
    show indexByte c (xs ++ c :: q) (k + 1) = _
    rw [ih (fun hm => h (List.mem_cons_of_mem _ hm)) (k + 1)]
    congr 1
    omega

theorem pending_length (b : Reader) (hok : b.Ok) : b.pending.length = b.unread := by
  obtain ⟨hl, hr, hw, _⟩ := hok
  simp only [Reader.pending, Reader.unread, List.length_append, List.length_take,
    List.length_drop]
  omega

theorem window_slide (buf : List Char) (r w : Nat) (h2 : w ≤ buf.length) :
    (((buf.drop r).take (w - r) ++ buf.drop (w - r)).drop 0).take (w - r - 0) =
      (buf.drop r).take (w - r) := by
  simp only [List.drop_zero, Nat.sub_zero]
  rw [List.take_append_of_le_length (by simp; omega)]
  simp

theorem window_read (buf rd : List Char) (r w n : Nat) (h1 : r ≤ w) (h2 : w ≤ buf.length)
    (h3 : n ≤ rd.length) :
    ((buf.take w ++ (rd.take n ++ buf.drop (w + n))).drop r).take (w + n - r) ++ rd.drop n =
      (buf.drop r).take (w - r) ++ rd := by
  have e1 : buf.take w ++ (rd.take n ++ buf.drop (w + n)) =
      (buf.take w ++ rd.take n) ++ buf.drop (w + n) := by simp
  have e2 : ((buf.take w ++ rd.take n).drop r).length = w + n - r := by
    simp only [List.length_drop, List.length_append, List.length_take]
    omega
  rw [e1, List.drop_append_of_le_length (by simp; omega),
    List.take_append_of_le_length (by rw [e2]), List.take_of_length_le (by rw [e2]),
    List.drop_append_of_le_length (by simp; omega), List.append_assoc, List.take_append_drop,
    List.drop_take]

theorem fill_read_pending (b1 : Reader) (h1 : b1.r ≤ b1.w) (h2 : b1.w ≤ b1.buf.length) :
    (if min (b1.buf.length - b1.w) b1.rd.length = 0 then { b1 with err := true }
      else { b1 with
        buf := b1.buf.take b1.w ++ (b1.rd.take (min (b1.buf.length - b1.w) b1.rd.length) ++
          b1.buf.drop (b1.w + min (b1.buf.length - b1.w) b1.rd.length)),
        w := b1.w + min (b1.buf.length - b1.w) b1.rd.length,
        rd := b1.rd.drop (min (b1.buf.length - b1.w) b1.rd.length) }).pending = b1.pending := by
  split
  · rfl
  · exact window_read b1.buf b1.rd b1.r b1.w _ h1 h2 (Nat.min_le_right _ _)

/-- The step `fill` hands out nothing: the bytes still to come stay the same. -/
theorem fill_pending (b : Reader) (hr : b.r ≤ b.w) (hw : b.w ≤ b.buf.length) :
    b.fill.pending = b.pending := by
  have hb1 : (if b.r > 0 then
        { b with buf := (b.buf.drop b.r).take (b.w - b.r) ++ b.buf.drop (b.w - b.r),
                 w := b.w - b.r, r := 0 }
      else b).pending = b.pending ∧
      (if b.r > 0 then
        { b with buf := (b.buf.drop b.r).take (b.w - b.r) ++ b.buf.drop (b.w - b.r),
                 w := b.w - b.r, r := 0 }
      else b).r ≤ (if b.r > 0 then
        { b with buf := (b.buf.drop b.r).take (b.w - b.r) ++ b.buf.drop (b.w - b.r),
                 w := b.w - b.r, r := 0 }
      else b).w ∧
      (if b.r > 0 then
        { b with buf := (b.buf.drop b.r).take (b.w - b.r) ++ b.buf.drop (b.w - b.r),
                 w := b.w - b.r, r := 0 }
      else b).w ≤ (if b.r > 0 then
        { b with buf := (b.buf.drop b.r).take (b.w - b.r) ++ b.buf.drop (b.w - b.r),
                 w := b.w - b.r, r := 0 }
      else b).buf.length := by
    split
    · refine ⟨?_, Nat.zero_le _, ?_⟩
      · show (((b.buf.drop b.r).take (b.w - b.r) ++ b.buf.drop (b.w - b.r)).drop 0).take
          (b.w - b.r - 0) ++ b.rd = _
        rw [window_slide b.buf b.r b.w hw]
        rfl
      · show b.w - b.r ≤ ((b.buf.drop b.r).take (b.w - b.r) ++ b.buf.drop (b.w - b.r)).length
        simp only [List.length_append, List.length_take, List.length_drop]
        omega
    · exact ⟨rfl, hr, hw⟩
  exact (fill_read_pending _ hb1.2.1 hb1.2.2).trans hb1.1

theorem append_split (c : Char) (x rd l rest : List Char) (h : x ++ rd = l ++ c :: rest)
    (hlen : l.length < x.length) : ∃ q, x = l ++ c :: q ∧ rest = q ++ rd := by
  rcases List.append_eq_append_iff.1 h with ⟨a, ha, _⟩ | ⟨a, ha, hb⟩
  · rw [ha] at hlen
    simp only [List.length_append] at hlen
    omega
  · cases a with
    | nil =>
      rw [ha] at hlen
      simp only [List.length_append, List.length_nil] at hlen
      omega
    | cons y q =>
      simp only [List.cons_append, List.cons.injEq] at hb
      exact ⟨q, by rw [ha, hb.1], hb.2⟩

/-- A line that is in the buffer with its newline is returned by `ReadSlice` at once. -/
theorem ReadSlice_buffered (n : Nat) (b : Reader) (hok : b.Ok) (l rest : List Char)
    (hp : b.pending = l ++ '\n' :: rest) (hnl : '\n' ∉ l) (hin : l.length < b.w - b.r) :
    Reader.ReadSlice (n + 1) b =
        ({ b with r := b.r + l.length + 1 }, ⟨b.r, l.length + 1⟩, .none) ∧
      ({ b with r := b.r + l.length + 1 } : Reader).pending = rest ∧
      b.bytes ⟨b.r, l.length + 1⟩ = l ++ ['\n'] := by
  obtain ⟨hl, hr, hw, _⟩ := hok
  have hwl : ((b.buf.drop b.r).take (b.w - b.r)).length = b.w - b.r := by
    simp only [List.length_take, List.length_drop]
    omega
  obtain ⟨q, hwin, hrest⟩ := append_split '\n' _ b.rd l rest hp (by rw [hwl]; exact hin)
  have hwin2 : (b.buf.drop b.r).take (b.w - b.r) = (l ++ ['\n']) ++ q := by
    rw [hwin]
    simp
  have hidx := indexByte_first '\n' l q hnl 0
  rw [← hwin, Nat.zero_add] at hidx
  refine ⟨ReadSlice_found n b l.length hidx, ?_, ?_⟩
  · show (b.buf.drop (b.r + l.length + 1)).take (b.w - (b.r + l.length + 1)) ++ b.rd = rest
    have h3 : (b.buf.drop (b.r + l.length + 1)).take (b.w - (b.r + l.length + 1)) =
        ((b.buf.drop b.r).take (b.w - b.r)).drop (l.length + 1) := by
      rw [List.drop_take, List.drop_drop]
      have e1 : b.w - (b.r + l.length + 1) = b.w - b.r - (l.length + 1) := by omega
      have e2 : b.r + l.length + 1 = b.r + (l.length + 1) := by omega
      rw [e1, e2]
    rw [h3, hwin2, List.drop_left' (by simp), hrest]
  · show (b.buf.drop b.r).take (l.length + 1) = l ++ ['\n']
    have h4 : (b.buf.drop b.r).take (l.length + 1) =
        ((b.buf.drop b.r).take (b.w - b.r)).take (l.length + 1) := by
      rw [List.take_take]
      congr 1
      omega
    rw [h4, hwin2, List.take_left' (by simp)]

/-- A line shorter than the buffer is returned by `ReadSlice` whole, with its newline. -/
theorem ReadSlice_line (b : Reader) (hok : b.Ok) (l rest : List Char)
    (hp : b.pending = l ++ '\n' :: rest) (hnl : '\n' ∉ l) (hshort : l.length < defaultBufSize) :
    ∃ b1 sl, b.ReadSlice 3 = (b1, sl, .none) ∧ b1.Ok ∧ b1.pending = rest ∧
      b1.bytes sl = l ++ ['\n'] ∧ sl.len = l.length + 1 := by
  have hres := ReadSlice_rounds b hok 0
  simp only [Nat.zero_add] at hres
  have hplen := pending_length b hok
  rw [hp] at hplen
  simp only [List.length_append, List.length_cons] at hplen
  by_cases hin : l.length < b.w - b.r
  · obtain ⟨h1, h2, h3⟩ := ReadSlice_buffered 2 b hok l rest hp hnl hin
    rw [h1] at hres
    exact ⟨_, _, h1, hres.2.1, h2, h3, rfl⟩
  · obtain ⟨hl, hr, hw, herr⟩ := hok
    have hwl : ((b.buf.drop b.r).take (b.w - b.r)).length = b.w - b.r := by
      simp only [List.length_take, List.length_drop]
      omega
    have hwin : (b.buf.drop b.r).take (b.w - b.r) = l.take (b.w - b.r) := by
      have h1 : (b.buf.drop b.r).take (b.w - b.r) = b.pending.take (b.w - b.r) :=
        (List.take_left' hwl).symm
      rw [h1, hp, List.take_append_of_le_length (by omega)]
    have hnone : indexByte '\n' ((b.buf.drop b.r).take (b.w - b.r)) 0 = none := by
      rw [hwin]
      exact indexByte_none _ _ (fun hm => hnl (List.mem_of_mem_take hm)) 0
    have hrdne : b.rd ≠ [] := by
      intro h0
      rw [Reader.unread, h0] at hplen
      simp only [List.length_nil] at hplen
      omega
    have he : b.err = false := by
      cases hb : b.err with
      | false => rfl
      | true => exact absurd (herr hb) hrdne
    have hf : ¬ b.buf.length ≤ b.w - b.r := by omega
    obtain ⟨fl, fr, fw, fu, _, fne⟩ := fill_spec b hr hw (by omega)
    have fe : b.fill.err = false := (fne hrdne).1.trans he
    have fok : b.fill.Ok := ⟨by rw [fl]; exact hl, by omega, by rw [fl]; exact fw,
      fun h2 => absurd (fe.symm.trans h2) (by simp)⟩
    have fp : b.fill.pending = l ++ '\n' :: rest := (fill_pending b hr hw).trans hp
    have fin : l.length < b.fill.w - b.fill.r := by
      by_contra hc
      have h0 := (fne hrdne).2 (by omega)
      have h1 : b.fill.unread = b.fill.w - b.fill.r := by
        rw [Reader.unread, h0]
        rfl
      omega
    obtain ⟨h1, h2, h3⟩ := ReadSlice_buffered 1 b.fill fok l rest fp hnl fin
    have h4 : b.ReadSlice 3 = b.fill.ReadSlice 2 := ReadSlice_fill 2 b hnone he hf
    rw [h4, h1] at hres
    exact ⟨_, _, h4.trans h1, hres.2.1, h2, h3, rfl⟩

theorem bytes_getD (b : Reader) (sl : Slice) (xs : List Char) (h : b.bytes sl = xs) (i : Nat)
    (hi : i < xs.length) (d : Char) : b.buf.getD (sl.off + i) d = xs.getD i d := by
  subst h
  have hi2 : i < sl.len := by
    simp only [Reader.bytes, List.length_take] at hi
    omega
  simp only [Reader.bytes, List.getD_eq_getElem?_getD, List.getElem?_take_of_lt hi2,
    List.getElem?_drop]

/-- A line shorter than the buffer and not ending in a carriage return is returned by
`ReadLine` whole, without its newline and with `isPrefix = false`. -/
theorem ReadLine_line (b : Reader) (hok : b.Ok) (l rest : List Char)
    (hp : b.pending = l ++ '\n' :: rest) (hnl : '\n' ∉ l) (hshort : l.length < defaultBufSize)
    (hcr : l.getLast? ≠ some '\r') :
    ∃ b1 sl, b.ReadLine = (b1, sl, false, false) ∧ b1.Ok ∧ b1.pending = rest ∧
      b1.bytes sl = l := by
  obtain ⟨b1, sl, hrs, hok1, hp1, hbytes, hlen⟩ := ReadSlice_line b hok l rest hp hnl hshort
  have hg := fun i hi => bytes_getD b1 sl (l ++ ['\n']) hbytes i hi (Char.ofNat 0)
  have h1 : ¬ sl.len = 0 := by omega
  have h2 : b1.buf.getD (sl.off + sl.len - 1) (Char.ofNat 0) = '\n' := by
    have e : sl.off + sl.len - 1 = sl.off + l.length := by omega
    rw [e, hg l.length (by simp)]
    simp [List.getD_eq_getElem?_getD]
  have h3 : ¬ (1 < sl.len ∧ b1.buf.getD (sl.off + sl.len - 2) (Char.ofNat 0) = '\r') := by
    rintro ⟨hlt, hc⟩
    have e : sl.off + sl.len - 2 = sl.off + (l.length - 1) := by omega
    have hi : l.length - 1 < (l ++ ['\n']).length := by
      simp only [List.length_append, List.length_cons, List.length_nil]
      omega
    rw [e, hg (l.length - 1) hi, List.getD_eq_getElem?_getD,
      List.getElem?_append_left (by omega)] at hc
    apply hcr
    rw [List.getLast?_eq_getElem?]
    have hlt2 : l.length - 1 < l.length := by omega
    rw [List.getElem?_eq_getElem hlt2] at hc ⊢
    simp only [Option.getD_some] at hc
    rw [hc]
  refine ⟨b1, { sl with len := sl.len - 1 }, ?_, hok1, hp1, ?_⟩
  · unfold Reader.ReadLine
    rw [hrs]
    simp only [h1, h2, h3, if_true, if_false]
  · show (b1.buf.drop sl.off).take (sl.len - 1) = l
    have e : (b1.buf.drop sl.off).take (sl.len - 1) =
        ((b1.buf.drop sl.off).take sl.len).take (sl.len - 1) := by
      rw [List.take_take]
      congr 1
      omega
    have hb : (b1.buf.drop sl.off).take sl.len = l ++ ['\n'] := hbytes
    rw [e, hb, List.take_left' (by omega)]

theorem eventText_cons (l : String) (ls : List String) :
    (eventText (l :: ls)).data = l.data ++ '\n' :: (eventText ls).data := by
  simp [eventText, String.data_append]

theorem eventText_length (lines : List String) : lines.length ≤ (eventText lines).length := by
  induction lines with
  | nil => exact Nat.zero_le _
  | cons l ls ih =>
    have h := congrArg List.length (eventText_cons l ls)
    simp only [List.length_append, List.length_cons] at h
    have e1 : (eventText (l :: ls)).length = (eventText (l :: ls)).data.length := rfl
    have e2 : (eventText ls).length = (eventText ls).data.length := rfl
    simp only [List.length_cons]
    omega

/-- At the end of the file `ReadLine` returns an error. -/
theorem ReadLine_end (b : Reader) (hok : b.Ok) (hp : b.pending = []) :
    b.ReadLine.2.2.2 = true := by
  have h0 : b.unread = 0 := by rw [← pending_length b hok, hp]; rfl
  cases h : b.ReadLine.2.2.2 with
  | true => rfl
  | false =>
    have := (ReadLine_spec b hok).2.2 h
    omega

/-- On a reader that still has to deliver the lines `lines`, all of them short, the loop of
`ParseEventFile` runs the loop body on each line in turn and is left through `break`. -/
theorem ParseEventFile_loop_short_lines (pub : Nat → Option String) :
    ∀ (lines : List String) (rounds : Nat) (reader : Reader) (s : Segmenter),
      reader.Ok → reader.pending = (eventText lines).data → (∀ l ∈ lines, ShortLine l) →
      lines.length < rounds →
      ParseEventFile.loop pub rounds reader ⟨0, 0⟩ s =
        (lines.foldl (segmentLine pub) s, true) := by
  intro lines
  induction lines with
  | nil =>
    intro rounds reader s hok hp _ hlt
    obtain ⟨n, rfl⟩ : ∃ n, rounds = n + 1 := ⟨rounds - 1, by simp at hlt; omega⟩
    have he := ReadLine_end reader hok hp
    rw [ParseEventFile.loop]
    rcases hrl : reader.ReadLine with ⟨b1, sl, more, err⟩
    rw [hrl] at he
    simp only at he
    simp only [he, if_true, List.foldl_nil]
  | cons l ls ih =>
    intro rounds reader s hok hp hshort hlt
    obtain ⟨n, rfl⟩ : ∃ n, rounds = n + 1 := ⟨rounds - 1, by simp at hlt; omega⟩
    obtain ⟨h1, h2, h3⟩ := hshort l (List.mem_cons_self _ _)
    rw [eventText_cons] at hp
    obtain ⟨b1, sl, hrl, hok1, hp1, hbytes⟩ :=
      ReadLine_line reader hok l.data (eventText ls).data hp h1 h2 h3
    rw [ParseEventFile.loop, hrl]
    simp only [Bool.false_eq_true, if_false, Nat.lt_irrefl, hbytes, List.foldl_cons]
    exact ih n b1 _ hok1 hp1 (fun x hx => hshort x (List.mem_cons_of_mem _ hx))
      (by simp only [List.length_cons] at hlt; omega)

/-- On a file of short lines Go `ParseEventFile` does what `ParseEvent` does on the lines. -/
theorem ParseEventFile_short_lines (pub : Nat → Option String) (lines : List String)
    (hshort : ∀ l ∈ lines, ShortLine l) :
    ParseEventFile pub (eventText lines) = ParseEvent pub lines := by
  have h := ParseEventFile_loop_short_lines pub lines ((eventText lines).length + 2)
    (NewReader (eventText lines)) Segmenter.init (NewReader_Ok _).1 rfl hshort
    (by have := eventText_length lines; omega)
  unfold ParseEventFile ParseEvent
  rw [h]

/-- C1: the loop body shared by `ParseEvent` and `ParseEventFile` calls `PublishBytes` once
exactly when `foundStart` holds and the text is an end marker; `ParseEvent` so makes as many
attempts as it meets end markers in state `Accumulating`, trailing lines without an end marker
add none, and the events do not depend on which attempts fail.  `ParseEventFile` reads every
file to its end and makes the same number of attempts on every file of short lines, but not on
`longLineFile`: its two lines are a start line of 5004 bytes and an end marker, one end marker
met while accumulating, yet the loop runs to the end of the file without a publish attempt,
because the text glued for the first line shows what the second `ReadLine` wrote into the
reader's buffer and is no start line. -/
theorem publish_attempts_count (pub : Nat → Option String) :
    (∀ (s : Segmenter) (text : String),
      (segmentLine pub s text).published.length
        = s.published.length + (if s.foundStart = true ∧ matchEnd text = true then 1 else 0)) ∧
    (∀ lines : List String,
      (ParseEvent pub lines).published.length = endMarkersWhileAccumulating .Idle lines) ∧
    (∀ lines trailing : List String, (∀ l ∈ trailing, matchEnd l = false) →
      (ParseEvent pub (lines ++ trailing)).published = (ParseEvent pub lines).published) ∧
    (∀ (pub' : Nat → Option String) (lines : List String),
      (ParseEvent pub' lines).published = (ParseEvent pub lines).published) ∧
    (∀ file : String,
      (ParseEventFile.loop pub (file.length + 2) (NewReader file) ⟨0, 0⟩ Segmenter.init).2
        = true) ∧
    (∀ lines : List String, (∀ l ∈ lines, ShortLine l) →
      (ParseEventFile pub (eventText lines)).published.length
        = endMarkersWhileAccumulating .Idle lines) ∧
    (ParseEventFile (fun _ => some "connection closed")
        "noise\n100 a\n...\n...\n200 open\nnever closed\n").published.length
      = endMarkersWhileAccumulating .Idle
          ["noise", "100 a", "...", "...", "200 open", "never closed"] ∧
    eventText longLineFileLines = longLineFile ∧
    endMarkersWhileAccumulating .Idle longLineFileLines = 1 ∧
    (ParseEvent (fun _ => none) longLineFileLines).published.length = 1 ∧
    ParseEventFile.loop (fun _ => none) (longLineFile.length + 2) (NewReader longLineFile)
        ⟨0, 0⟩ Segmenter.init = (Segmenter.init, true) ∧
    (ParseEventFile (fun _ => none) longLineFile).published.length = 0 := by
  refine ⟨?_, ?_, ?_, ?_, fun file => (ParseEventFile_ends pub file).1, ?_, by decide!,
    by decide!, by decide!, by decide!, by decide!, by decide!⟩
  · intro s text
    cases hs : s.foundStart
    · by_cases hm : matchStart text = true <;> simp [segmentLine, hs, hm]
    · by_cases hm : matchEnd text = true <;> simp [segmentLine, hs, hm]
  · intro lines
    rw [ParseEvent_published, emitted_length]; rfl
  · intro lines trailing h
    rw [ParseEvent_published, ParseEvent_published, emitted_append_noEnd trailing h]
  · intro pub' lines
    rw [ParseEvent_published, ParseEvent_published]
  · intro lines h
    rw [ParseEventFile_short_lines pub lines h, ParseEvent_published, emitted_length]; rfl

/-- C2: in `ParseEvent` every event handed to the publisher is the text of the lines from a
start line read while idle through the first following end marker, each line followed by a
newline, and the events come in input order; lines without a start line, or with a start
line and no later end marker, make no event.  `ParseEventFile` does what `ParseEvent` does on
every file of short lines, so for the specification's example, but not for `longBodyFile`: its three lines are one event whose
text is the whole file, and the event that `ParseEventFile` publishes has, in the place of the
first five bytes of the long line, the bytes that the next `ReadLine` wrote into the reader's
buffer. -/
theorem event_text (pub : Nat → Option String) :
    (∀ (noise : List String) (s : String) (body : List String) (e : String) (rest : List String),
      (∀ l ∈ noise, matchStart l = false) → matchStart s = true →
      (∀ l ∈ body, matchEnd l = false) → matchEnd e = true →
      (ParseEvent pub (noise ++ (s :: (body ++ (e :: rest))))).published
        = eventText (s :: (body ++ [e])) :: (ParseEvent pub rest).published) ∧
    (∀ noise : List String, (∀ l ∈ noise, matchStart l = false) →
      (ParseEvent pub noise).published = []) ∧
    (∀ (noise : List String) (s : String) (body : List String),
      (∀ l ∈ noise, matchStart l = false) → (∀ l ∈ body, matchEnd l = false) →
      (ParseEvent pub (noise ++ (s :: body))).published = []) ∧
    (∀ lines : List String, (∀ l ∈ lines, ShortLine l) →
      ParseEventFile pub (eventText lines) = ParseEvent pub lines) ∧
    (ParseEvent pub ["100 hello", "more text", "...done"]).published
      = ["100 hello\nmore text\n...done\n"] ∧
    (ParseEventFile (fun _ => none) "100 hello\nmore text\n...done\n").published
      = ["100 hello\nmore text\n...done\n"] ∧
    eventText longBodyFileLines = longBodyFile ∧
    (ParseEvent (fun _ => none) longBodyFileLines).published = [longBodyFile] ∧
    (ParseEventFile (fun _ => none) longBodyFile).published
      = [String.mk ("100 x\n".data ++ (List.replicate 904 'b' ++ ("\n...\n".data ++
          (List.replicate 4091 'b' ++ "\n...\n".data))))] ∧
    (ParseEventFile (fun _ => none) longBodyFile).published ≠ [longBodyFile] := by
  refine ⟨?_, ?_, ?_, ParseEventFile_short_lines pub, ?_, by decide!, by decide!, by decide!,
    by decide!, by decide!⟩
  · intro noise s body e rest hn hs hb he
    rw [ParseEvent_published, ParseEvent_published, emitted_span noise hn s hs body hb e he]
  · intro noise hn
    rw [ParseEvent_published]
    have := emitted_skip_noise noise hn [] ""
    simpa [emitted] using this
  · intro noise s body hn hb
    rw [ParseEvent_published, emitted_skip_noise noise hn]
    have h0 := emitted_append_noEnd body hb [] true ("" ++ s ++ "\n")
    have h1 := emitted_append_noEnd body hb [] false ""
    by_cases hs : matchStart s = true
    · simpa [emitted, hs] using h0
    · simpa [emitted, hs] using h1
  · rw [ParseEvent_published]; decide

/-! ### `SliceByInode` -/

theorem foundIdx_found (inode : Nat) (l : List Logfile) :
    ∀ k : Nat, (∃ lf ∈ l, lf.Info.Ino = inode) →
      k ≤ SliceByInode.foundIdx inode l k ∧
      l.drop (SliceByInode.foundIdx inode l k - k)
        = l.dropWhile (fun lf => lf.Info.Ino != inode) := by
  induction l with
  | nil => intro k h; simp at h
  | cons a as ih =>
    intro k h
    by_cases ha : a.Info.Ino = inode
    · simp [SliceByInode.foundIdx, InodeFromFileInfo, ha, List.dropWhile]
    · have h' : ∃ lf ∈ as, lf.Info.Ino = inode := by
        obtain ⟨lf, hlf, hi⟩ := h
        rcases List.mem_cons.mp hlf with rfl | hmem
        · exact absurd hi ha
        · exact ⟨lf, hmem, hi⟩
      obtain ⟨h1, h2⟩ := ih (k + 1) h'
      have hsub : SliceByInode.foundIdx inode as (k + 1) - k
          = (SliceByInode.foundIdx inode as (k + 1) - (k + 1)) + 1 := by omega
      refine ⟨?_, ?_⟩
      · simp [SliceByInode.foundIdx, InodeFromFileInfo, ha]; omega
      · simp only [SliceByInode.foundIdx, InodeFromFileInfo, ha, if_false, hsub, List.drop_succ_cons]
        rw [h2]
        have hne : (a.Info.Ino != inode) = true := by simpa using ha
        exact (List.dropWhile_cons_of_pos (p := fun lf : Logfile => lf.Info.Ino != inode)
          (a := a) (l := as) hne).symm

theorem foundIdx_absent (inode : Nat) (l : List Logfile) :
    ∀ k : Nat, (∀ lf ∈ l, lf.Info.Ino ≠ inode) → SliceByInode.foundIdx inode l k = 0 := by
  induction l with
  | nil => intro k _; rfl
  | cons a as ih =>
    intro k h
    have ha : a.Info.Ino ≠ inode := h a (by simp)
    have has : ∀ lf ∈ as, lf.Info.Ino ≠ inode := fun lf hlf => h lf (by simp [hlf])
    simp [SliceByInode.foundIdx, InodeFromFileInfo, ha, ih (k + 1) has]

/-- C3: when some entry of `l` has inode `i`, `SliceByInode l i` is the suffix of `l` that
starts at the first entry with inode `i`: `l` is `before ++ SliceByInode l i`, no entry of
`before` has inode `i`, and the slice begins with an entry of inode `i`.  Inodes `[7, 42, 9]`
sliced by 42 give `[42, 9]`. -/
theorem slice_by_inode_found (l : LogfileList) (i : Nat) (h : ∃ lf ∈ l, lf.Info.Ino = i) :
    LogfileList.SliceByInode l i = l.dropWhile (fun lf => lf.Info.Ino != i) ∧
    (∃ before : List Logfile, l = before ++ LogfileList.SliceByInode l i ∧
      (∀ lf ∈ before, lf.Info.Ino ≠ i) ∧
      ∃ first rest, LogfileList.SliceByInode l i = first :: rest ∧ first.Info.Ino = i) ∧
    LogfileList.SliceByInode [logfileNamed "evt.2" 7, logfileNamed "evt.1" 42, logfileNamed "evt" 9] 42
      = [logfileNamed "evt.1" 42, logfileNamed "evt" 9] := by
  have hslice : LogfileList.SliceByInode l i = l.dropWhile (fun lf => lf.Info.Ino != i) := by
    have := (foundIdx_found i l 0 h).2
    simpa [LogfileList.SliceByInode] using this
  refine ⟨hslice, ⟨l.takeWhile (fun lf => lf.Info.Ino != i), ?_, ?_, ?_⟩, by decide⟩
  · rw [hslice, List.takeWhile_append_dropWhile]
  · intro lf hlf
    have := List.mem_takeWhile_imp hlf
    simpa using this
  · rw [hslice]
    obtain ⟨lf, hlf, hi⟩ := h
    cases hd : l.dropWhile (fun lf => lf.Info.Ino != i) with
    | nil =>
      rw [List.dropWhile_eq_nil_iff] at hd
      have := hd lf hlf
      simp [hi] at this
    | cons first rest =>
      refine ⟨first, rest, rfl, ?_⟩
      have := List.head_dropWhile_not (fun lf : Logfile => lf.Info.Ino != i) l (by simp [hd])
      simpa [hd] using this

/-- Witness for C3: the list of the specification, sliced by inode 42. -/
theorem slice_by_inode_found_witness :
    LogfileList.SliceByInode [logfileNamed "evt.2" 7, logfileNamed "evt.1" 42, logfileNamed "evt" 9] 42
      = [logfileNamed "evt.2" 7, logfileNamed "evt.1" 42, logfileNamed "evt" 9].dropWhile
          (fun lf => lf.Info.Ino != 42) :=
  (slice_by_inode_found [logfileNamed "evt.2" 7, logfileNamed "evt.1" 42, logfileNamed "evt" 9] 42
    ⟨logfileNamed "evt.1" 42, by decide, by decide⟩).1

/-- C4: when no entry of `l` has inode `i`, `SliceByInode l i` is `l` itself. -/
theorem slice_by_inode_absent (l : LogfileList) (i : Nat) (h : ∀ lf ∈ l, lf.Info.Ino ≠ i) :
    LogfileList.SliceByInode l i = l := by
  simp [LogfileList.SliceByInode, foundIdx_absent i l 0 h]

/-- Witness for C4: inode 5 is not in the list, which comes back whole. -/
theorem slice_by_inode_absent_witness :
    LogfileList.SliceByInode [logfileNamed "evt.2" 7, logfileNamed "evt.1" 42, logfileNamed "evt" 9] 5
      = [logfileNamed "evt.2" 7, logfileNamed "evt.1" 42, logfileNamed "evt" 9] :=
  slice_by_inode_absent [logfileNamed "evt.2" 7, logfileNamed "evt.1" 42, logfileNamed "evt" 9] 5
    (by decide)

/-! ### `Less` -/

theorem reFind_some (l : List Char) :
    ∀ m, reFind l = some m →
      ∃ base ds, l = base ++ '.' :: ds ∧ m = '.' :: ds ∧ ds ≠ [] ∧ ds.all isDigit = true := by
  induction l with
  | nil => intro m h; simp [reFind] at h
  | cons c cs ih =>
    intro m h
    by_cases hc : c = '.' ∧ cs ≠ [] ∧ cs.all isDigit = true
    · rw [reFind, if_pos hc] at h
      obtain ⟨h1, h2, h3⟩ := hc
      refine ⟨[], cs, ?_, ?_, h2, h3⟩
      · simp [h1]
      · simp at h; rw [← h, h1]
    · rw [reFind, if_neg hc] at h
      obtain ⟨base, ds, h1, h2, h3, h4⟩ := ih m h
      exact ⟨c :: base, ds, by simp [h1], h2, h3, h4⟩

theorem reFind_of_form (ds : List Char) (hne : ds ≠ []) (hd : ds.all isDigit = true) :
    ∀ base : List Char, reFind (base ++ '.' :: ds) = some ('.' :: ds) := by
  intro base
  induction base with
  | nil =>
    have : ('.' = '.' ∧ ds ≠ [] ∧ ds.all isDigit = true) := ⟨rfl, hne, hd⟩
    rw [List.nil_append, reFind, if_pos this]
  | cons c cs ih =>
    have hdot : isDigit '.' = false := by decide
    have : ¬ (c = '.' ∧ (cs ++ '.' :: ds) ≠ [] ∧ (cs ++ '.' :: ds).all isDigit = true) := by
      rintro ⟨_, _, h3⟩
      simp [List.all_append, hdot] at h3
    rw [List.cons_append, reFind, if_neg this, ih]

theorem Atoi_digits (ds : List Char) (hne : ds ≠ []) (hd : ds.all isDigit = true) :
    Atoi ds = if 2 ^ 63 ≤ decimalValue ds then .error "value out of range"
      else .ok (decimalValue ds : Int) := by
  cases ds with
  | nil => exact absurd rfl hne
  | cons c t =>
    have hc : isDigit c = true := by
      simp only [List.all_cons, Bool.and_eq_true] at hd; exact hd.1
    have hplus : c ≠ '+' := by rintro rfl; exact absurd hc (by decide)
    have hminus : c ≠ '-' := by rintro rfl; exact absurd hc (by decide)
    have hsigned : (match c :: t with
        | '+' :: t => (false, t)
        | '-' :: t => (true, t)
        | _ => (false, c :: t)) = (false, c :: t) := by
      split
      · rename_i h; simp at h; exact absurd h.1 hplus
      · rename_i h; simp at h; exact absurd h.1 hminus
      · rfl
    unfold Atoi
    simp only [hsigned]
    simp [hd]

theorem lessNames_eq (a b : String) :
    lessNames a b =
      match suffixValue a, suffixValue b with
      | none, _ => false
      | some _, none => true
      | some x, some y =>
        if 2 ^ 63 ≤ x then false else if 2 ^ 63 ≤ y then true else decide (y < x) := by
  unfold lessNames suffixValue
  cases ha : reFind a.data with
  | none => cases hb : reFind b.data <;> simp
  | some m1 =>
    obtain ⟨_, d1, -, rfl, hne1, hd1⟩ := reFind_some _ _ ha
    cases hb : reFind b.data with
    | none => simp
    | some m2 =>
      obtain ⟨_, d2, -, rfl, hne2, hd2⟩ := reFind_some _ _ hb
      simp only [List.drop_succ_cons, List.drop_zero, Option.map_some',
        Atoi_digits d1 hne1 hd1, Atoi_digits d2 hne2 hd2]
      by_cases h1 : 2 ^ 63 ≤ decimalValue d1
      · rw [if_pos h1, if_pos h1]
      · by_cases h2 : 2 ^ 63 ≤ decimalValue d2
        · rw [if_neg h1, if_neg h1, if_pos h2, if_pos h2]
        · rw [if_neg h1, if_neg h1, if_neg h2, if_neg h2]
          simp

theorem hasNumber_iff (name : String) (n : Nat) :
    HasNumber name n ↔ suffixValue name = some n := by
  constructor
  · rintro ⟨base, ds, h1, h2, h3, h4⟩
    have hall : ds.all isDigit = true := by simpa using h3
    simp [suffixValue, h1, reFind_of_form ds h2 hall base, h4]
  · intro h
    unfold suffixValue at h
    cases hr : reFind name.data with
    | none => simp [hr] at h
    | some m =>
      obtain ⟨base, ds, h1, rfl, h3, h4⟩ := reFind_some _ _ hr
      simp [hr] at h
      exact ⟨base, ds, h1, h3, by simpa using h4, h⟩

theorem suffixless_iff (name : String) : Suffixless name ↔ suffixValue name = none := by
  unfold Suffixless
  simp only [hasNumber_iff]
  cases suffixValue name <;> simp

theorem before_of_sorted (a b : String)
    (va : ∀ n, suffixValue a = some n → n < 2 ^ 63)
    (vb : ∀ n, suffixValue b = some n → n < 2 ^ 63)
    (hk : suffixValue a ≠ suffixValue b) (hl : lessNames b a = false) :
    ∃ n, suffixValue a = some n ∧
      (suffixValue b = none ∨ ∃ m, suffixValue b = some m ∧ m < n) := by
  rw [lessNames_eq] at hl
  cases ha : suffixValue a with
  | none =>
    cases hb : suffixValue b with
    | none => rw [ha, hb] at hk; exact absurd rfl hk
    | some m => rw [ha, hb] at hl; simp at hl
  | some n =>
    refine ⟨n, rfl, ?_⟩
    cases hb : suffixValue b with
    | none => exact Or.inl rfl
    | some m =>
      right
      refine ⟨m, rfl, ?_⟩
      have h1 := va n ha
      have h2 := vb m hb
      rw [ha, hb] at hl hk
      have hne : n ≠ m := fun h => hk (by rw [h])
      simp only [Nat.not_le.mpr h1, Nat.not_le.mpr h2, if_false, decide_eq_false_iff_not] at hl
      omega

theorem sorted_shape (out : List Logfile)
    (hp : out.Pairwise (fun a b =>
      ∃ n, suffixValue a.Info.Name = some n ∧
        (suffixValue b.Info.Name = none ∨ ∃ m, suffixValue b.Info.Name = some m ∧ m < n))) :
    ∃ suffixed plain : List Logfile, out = suffixed ++ plain ∧
      (∀ f ∈ suffixed, ∃ n, suffixValue f.Info.Name = some n) ∧
      suffixed.Pairwise (fun f g => ∃ n m, suffixValue f.Info.Name = some n ∧
        suffixValue g.Info.Name = some m ∧ m < n) ∧
      (∀ f ∈ plain, suffixValue f.Info.Name = none) ∧ plain.length ≤ 1 := by
  induction out with
  | nil => exact ⟨[], [], rfl, by simp, List.Pairwise.nil, by simp, by simp⟩
  | cons a t ih =>
    rw [List.pairwise_cons] at hp
    obtain ⟨ha, ht⟩ := hp
    obtain ⟨suf, plain, rfl, hs1, hs2, hp1, hp2⟩ := ih ht
    cases hk : suffixValue a.Info.Name with
    | none =>
      have hnil : suf ++ plain = [] := by
        cases hsp : suf ++ plain with
        | nil => rfl
        | cons b r =>
          obtain ⟨n, hn, _⟩ := ha b (by rw [hsp]; simp)
          rw [hk] at hn; exact absurd hn (by simp)
      refine ⟨[], [a], by simp [hnil], by simp, List.Pairwise.nil, by simp [hk], by simp⟩
    | some n =>
      refine ⟨a :: suf, plain, by simp, ?_, ?_, hp1, hp2⟩
      · intro f hf
        rcases List.mem_cons.mp hf with rfl | hf
        · exact ⟨n, hk⟩
        · exact hs1 f hf
      · rw [List.pairwise_cons]
        refine ⟨?_, hs2⟩
        intro g hg
        obtain ⟨m, hm⟩ := hs1 g hg
        obtain ⟨n', hn', hor⟩ := ha g (by simp [hg])
        rw [hk] at hn'
        cases hn'
        rcases hor with h | ⟨m', hm', hlt⟩
        · rw [hm] at h; exact absurd h (by simp)
        · rw [hm] at hm'; cases hm'
          exact ⟨n, m, hk, hm, hlt⟩

theorem sortOf_before (l out : LogfileList)
    (hform : ∀ f ∈ l, Suffixless f.Info.Name ∨ ∃ n, HasNumber f.Info.Name n ∧ n < 2 ^ 63)
    (hone : l.Pairwise (fun f g => ¬ (Suffixless f.Info.Name ∧ Suffixless g.Info.Name)))
    (hdistinct : l.Pairwise (fun f g =>
      ∀ n m, HasNumber f.Info.Name n → HasNumber g.Info.Name m → n ≠ m))
    (hsort : IsSortOf out l) :
    out.Pairwise (fun a b =>
      ∃ n, suffixValue a.Info.Name = some n ∧
        (suffixValue b.Info.Name = none ∨ ∃ m, suffixValue b.Info.Name = some m ∧ m < n)) := by
  have hkeyl : l.Pairwise (fun f g => suffixValue f.Info.Name ≠ suffixValue g.Info.Name) := by
    refine (hone.and hdistinct).imp ?_
    rintro f g ⟨h1, h2⟩ heq
    cases hk : suffixValue f.Info.Name with
    | none =>
      exact h1 ⟨(suffixless_iff _).2 hk, (suffixless_iff _).2 (heq ▸ hk)⟩
    | some n =>
      exact h2 n n ((hasNumber_iff _ _).2 hk) ((hasNumber_iff _ _).2 (heq ▸ hk)) rfl
  have hkey : out.Pairwise (fun f g => suffixValue f.Info.Name ≠ suffixValue g.Info.Name) :=
    (List.Perm.pairwise_iff (fun h => Ne.symm h) hsort.1).2 hkeyl
  have hvalid : ∀ f ∈ out, ∀ n, suffixValue f.Info.Name = some n → n < 2 ^ 63 := by
    intro f hf n hn
    rcases hform f (hsort.1.subset hf) with h | ⟨m, hm, hlt⟩
    · rw [(suffixless_iff _).1 h] at hn; exact absurd hn (by simp)
    · rw [(hasNumber_iff _ _).1 hm] at hn; cases hn; exact hlt
  refine (hsort.2.and hkey).imp_of_mem ?_
  rintro a b ha hb ⟨h1, h2⟩
  exact before_of_sorted _ _ (hvalid a ha) (hvalid b hb) h2 h1

/-- C5 (amended): for a list of log files in which at most one name has no numeric suffix and
the other names have the form `<base>.<n>` with pairwise distinct numbers below `2 ^ 63`, every
order that `sort.Sort` with `Less` can produce is the same one: the suffixed names in strictly
descending order of their number, followed by the suffixless name. -/
theorem sort_descending_suffix (l out : LogfileList)
    (hform : ∀ f ∈ l, Suffixless f.Info.Name ∨ ∃ n, HasNumber f.Info.Name n ∧ n < 2 ^ 63)
    (hone : l.Pairwise (fun f g => ¬ (Suffixless f.Info.Name ∧ Suffixless g.Info.Name)))
    (hdistinct : l.Pairwise (fun f g =>
      ∀ n m, HasNumber f.Info.Name n → HasNumber g.Info.Name m → n ≠ m))
    (hsort : IsSortOf out l) :
    DescendingThenPlain out ∧ ∀ out' : LogfileList, IsSortOf out' l → out' = out := by
  have hbefore := sortOf_before l out hform hone hdistinct hsort
  constructor
  · obtain ⟨suf, plain, h1, h2, h3, h4, h5⟩ := sorted_shape out hbefore
    refine ⟨suf, plain, h1, ?_, ?_, ?_, h5⟩
    · intro f hf
      obtain ⟨n, hn⟩ := h2 f hf
      exact ⟨n, (hasNumber_iff _ _).2 hn⟩
    · refine h3.imp ?_
      rintro f g ⟨n, m, hn, hm, hlt⟩
      exact ⟨n, m, (hasNumber_iff _ _).2 hn, (hasNumber_iff _ _).2 hm, hlt⟩
    · intro f hf
      exact (suffixless_iff _).2 (h4 f hf)
  · intro out' hsort'
    have hbefore' := sortOf_before l out' hform hone hdistinct hsort'
    haveI : IsAntisymm Logfile (fun a b =>
        ∃ n, suffixValue a.Info.Name = some n ∧
          (suffixValue b.Info.Name = none ∨
            ∃ m, suffixValue b.Info.Name = some m ∧ m < n)) := by
      constructor
      rintro a b ⟨n, hn, hb⟩ ⟨m, hm, ha⟩
      exfalso
      rcases hb with hb | ⟨m', hm', h1⟩
      · rw [hm] at hb; exact absurd hb (by simp)
      · rcases ha with ha | ⟨n', hn', h2⟩
        · rw [hn] at ha; exact absurd ha (by simp)
        · rw [hm] at hm'; rw [hn] at hn'
          cases hm'; cases hn'
          omega
    exact List.eq_of_perm_of_sorted (hsort'.1.trans hsort.1.symm) hbefore' hbefore

theorem pairwise_distinct_numbers (l : LogfileList)
    (h : l.Pairwise (fun f g => suffixValue f.Info.Name ≠ suffixValue g.Info.Name)) :
    l.Pairwise (fun f g => ¬ (Suffixless f.Info.Name ∧ Suffixless g.Info.Name)) ∧
    l.Pairwise (fun f g =>
      ∀ n m, HasNumber f.Info.Name n → HasNumber g.Info.Name m → n ≠ m) := by
  constructor
  · refine h.imp ?_
    rintro f g hne ⟨h1, h2⟩
    exact hne (by rw [(suffixless_iff _).1 h1, (suffixless_iff _).1 h2])
  · refine h.imp ?_
    rintro f g hne n m hn hm rfl
    exact hne (by rw [(hasNumber_iff _ _).1 hn, (hasNumber_iff _ _).1 hm])

theorem form_of_suffixValue (l : LogfileList)
    (h : ∀ f ∈ l, ∀ n, suffixValue f.Info.Name = some n → n < 2 ^ 63) :
    ∀ f ∈ l, Suffixless f.Info.Name ∨ ∃ n, HasNumber f.Info.Name n ∧ n < 2 ^ 63 := by
  intro f hf
  cases hk : suffixValue f.Info.Name with
  | none => exact Or.inl ((suffixless_iff _).2 hk)
  | some n => exact Or.inr ⟨n, (hasNumber_iff _ _).2 hk, h f hf n hk⟩

/-- Witness for C5: `["evt", "evt.3", "evt.1", "evt.10"]` sorts to
`["evt.10", "evt.3", "evt.1", "evt"]` and to nothing else. -/
theorem sort_descending_suffix_witness :
    insertionSort exampleListing = exampleSorted ∧
    IsSortOf exampleSorted exampleListing ∧ DescendingThenPlain exampleSorted ∧
    ∀ out' : LogfileList, IsSortOf out' exampleListing → out' = exampleSorted :=
  have hs : IsSortOf exampleSorted exampleListing := ⟨by decide, by decide⟩
  have hk := pairwise_distinct_numbers exampleListing (by decide)
  ⟨by decide, hs, sort_descending_suffix exampleListing exampleSorted
    (form_of_suffixValue exampleListing (by decide)) hk.1 hk.2 hs⟩

/-- Counterexample for C5 as stated: `evt.9223372036854775808` and `evt.1` have the form
`<base>.<n>` with distinct numbers, the order that `Less` accepts puts `evt.1` first, and
that order is not descending. -/
theorem sort_descending_counterexample :
    (∀ f ∈ overflowListing, ∃ n, HasNumber f.Info.Name n) ∧
    overflowListing.Pairwise (fun f g =>
      ∀ n m, HasNumber f.Info.Name n → HasNumber g.Info.Name m → n ≠ m) ∧
    IsSortOf [logfileNamed "evt.1" 2, logfileNamed "evt.9223372036854775808" 1] overflowListing ∧
    ¬ IsSortOf overflowListing overflowListing ∧
    ¬ DescendingThenPlain
      [logfileNamed "evt.1" 2, logfileNamed "evt.9223372036854775808" 1] := by
  have hbig : suffixValue (logfileNamed "evt.9223372036854775808" 1).Info.Name
      = some 9223372036854775808 := by decide
  have hone : suffixValue (logfileNamed "evt.1" 2).Info.Name = some 1 := by decide
  refine ⟨?_, (pairwise_distinct_numbers overflowListing (by decide)).2,
    ⟨by decide, by decide⟩, ?_, ?_⟩
  · intro f hf
    simp only [overflowListing, List.mem_cons, List.mem_singleton, List.not_mem_nil,
      or_false] at hf
    rcases hf with rfl | rfl
    · exact ⟨_, (hasNumber_iff _ _).2 hbig⟩
    · exact ⟨_, (hasNumber_iff _ _).2 hone⟩
  · rintro ⟨-, h⟩
    revert h
    decide
  · rintro ⟨suf, plain, h1, -, h3, h4, -⟩
    have hplain : plain = [] := by
      rw [List.eq_nil_iff_forall_not_mem]
      intro f hf
      have hmem : f ∈ [logfileNamed "evt.1" 2, logfileNamed "evt.9223372036854775808" 1] := by
        rw [h1]; exact List.mem_append_right _ hf
      have hs := (suffixless_iff _).1 (h4 f hf)
      simp only [List.mem_cons, List.mem_singleton, List.not_mem_nil, or_false] at hmem
      rcases hmem with rfl | rfl
      · rw [hone] at hs; exact absurd hs (by simp)
      · rw [hbig] at hs; exact absurd hs (by simp)
    subst hplain
    rw [List.append_nil] at h1
    subst h1
    rw [List.pairwise_cons] at h3
    obtain ⟨n, m, hn, hm, hlt⟩ :=
      h3.1 (logfileNamed "evt.9223372036854775808" 1) (List.mem_singleton.2 rfl)
    rw [hasNumber_iff, hone] at hn
    rw [hasNumber_iff, hbig] at hm
    cases hn; cases hm
    omega

theorem lessNames_true_iff (a b : String) :
    lessNames a b = true ↔
      ∃ x, suffixValue a = some x ∧
        (suffixValue b = none ∨
          ∃ y, suffixValue b = some y ∧ x < 2 ^ 63 ∧ (2 ^ 63 ≤ y ∨ y < x)) := by
  rw [lessNames_eq]
  generalize (2 : Nat) ^ 63 = B
  cases ha : suffixValue a with
  | none => simp
  | some x =>
    cases hb : suffixValue b with
    | none => simp
    | some y =>
      by_cases h1 : B ≤ x
      · simp [h1]
      · by_cases h2 : B ≤ y
        · simp [h1, h2]; omega
        · simp [h1, h2]; omega

theorem lessNames_false_iff (a b : String) :
    lessNames a b = false ↔
      suffixValue a = none ∨
        ∃ x, suffixValue a = some x ∧
          ∃ y, suffixValue b = some y ∧ (2 ^ 63 ≤ x ∨ (y < 2 ^ 63 ∧ x ≤ y)) := by
  rw [← Bool.not_eq_true, lessNames_true_iff]
  generalize (2 : Nat) ^ 63 = B
  cases ha : suffixValue a with
  | none => simp
  | some x =>
    cases hb : suffixValue b with
    | none => simp
    | some y => simp; omega

theorem lessNames_irrefl (a : String) : lessNames a a = false := by
  rw [lessNames_false_iff]
  cases ha : suffixValue a with
  | none => simp
  | some x => simp; omega

theorem lessNames_trans (a b c : String) (h1 : lessNames a b = true)
    (h2 : lessNames b c = true) : lessNames a c = true := by
  rw [lessNames_true_iff] at h1 h2 ⊢
  obtain ⟨x, hx, h1⟩ := h1
  obtain ⟨y, hy, h2⟩ := h2
  refine ⟨x, hx, ?_⟩
  rcases h1 with h1 | ⟨y', hy', hxB, h1⟩
  · rw [hy] at h1; exact absurd h1 (by simp)
  · rw [hy] at hy'; cases hy'
    rcases h2 with h2 | ⟨z, hz, hyB, h2⟩
    · exact Or.inl h2
    · exact Or.inr ⟨z, hz, hxB, by omega⟩

theorem lessNames_asymm (a b : String) (h1 : lessNames a b = true) : lessNames b a = false := by
  rw [lessNames_true_iff] at h1
  rw [lessNames_false_iff]
  obtain ⟨x, hx, h1⟩ := h1
  rcases h1 with h1 | ⟨y, hy, hxB, h1⟩
  · exact Or.inl h1
  · exact Or.inr ⟨y, hy, x, hx, by omega⟩

theorem lessNames_tied_iff (a b : String) :
    (lessNames a b = false ∧ lessNames b a = false) ↔ Tied a b := by
  unfold Tied
  simp only [suffixless_iff, hasNumber_iff, lessNames_false_iff]
  generalize (2 : Nat) ^ 63 = B
  cases ha : suffixValue a with
  | none =>
    cases hb : suffixValue b with
    | none => simp
    | some y => simp
  | some x =>
    cases hb : suffixValue b with
    | none => simp
    | some y => simp; omega

theorem tied_trans (a b c : String) (h1 : Tied a b) (h2 : Tied b c) : Tied a c := by
  unfold Tied at *
  simp only [suffixless_iff, hasNumber_iff] at *
  generalize (2 : Nat) ^ 63 = B at *
  cases ha : suffixValue a <;> cases hb : suffixValue b <;> cases hc : suffixValue c <;>
    simp [ha, hb, hc] at h1 h2 ⊢
  omega

/-- C10 (amended): on every list of log files, in particular on every listing filtered by
`NewLogfileList`, `Less` is a strict weak order: no entry is less than itself, `Less` is
transitive and asymmetric, and being unordered is transitive.  Two entries are unordered
exactly when both names have no numeric suffix, or both have a suffix of the same value, or
both have a suffix too large for `int`; for every other pair exactly one of `Less(a, b)` and
`Less(b, a)` holds. -/
theorem less_strict_weak_order (l : LogfileList) :
    (∀ i : Fin l.length, LogfileList.Less l i i = false) ∧
    (∀ i j k : Fin l.length, LogfileList.Less l i j = true → LogfileList.Less l j k = true →
      LogfileList.Less l i k = true) ∧
    (∀ i j : Fin l.length, LogfileList.Less l i j = true → LogfileList.Less l j i = false) ∧
    (∀ i j k : Fin l.length,
      (LogfileList.Less l i j = false ∧ LogfileList.Less l j i = false) →
      (LogfileList.Less l j k = false ∧ LogfileList.Less l k j = false) →
      (LogfileList.Less l i k = false ∧ LogfileList.Less l k i = false)) ∧
    (∀ i j : Fin l.length,
      (LogfileList.Less l i j = false ∧ LogfileList.Less l j i = false)
        ↔ Tied (l.get i).Info.Name (l.get j).Info.Name) ∧
    (∀ i j : Fin l.length, ¬ Tied (l.get i).Info.Name (l.get j).Info.Name →
      (LogfileList.Less l i j = true ∧ LogfileList.Less l j i = false) ∨
      (LogfileList.Less l j i = true ∧ LogfileList.Less l i j = false)) := by
  refine ⟨?_, ?_, ?_, ?_, ?_, ?_⟩
  · intro i
    exact lessNames_irrefl _
  · intro i j k h1 h2
    exact lessNames_trans _ _ _ h1 h2
  · intro i j h
    exact lessNames_asymm _ _ h
  · intro i j k h1 h2
    unfold LogfileList.Less at *
    rw [lessNames_tied_iff] at h1 h2 ⊢
    exact tied_trans _ _ _ h1 h2
  · intro i j
    exact lessNames_tied_iff _ _
  · intro i j h
    unfold LogfileList.Less
    rw [← lessNames_tied_iff] at h
    cases h1 : lessNames (l.get i).Info.Name (l.get j).Info.Name
    · cases h2 : lessNames (l.get j).Info.Name (l.get i).Info.Name
      · exact absurd ⟨h1, h2⟩ h
      · exact Or.inr ⟨rfl, rfl⟩
    · exact Or.inl ⟨rfl, lessNames_asymm _ _ h1⟩

/-- Witness for C10: in the specification's listing `evt.3` and `evt.10` are not tied, and
`evt.10` is the lesser. -/
theorem less_strict_weak_order_witness :
    ¬ Tied (exampleListing.get ⟨1, by decide⟩).Info.Name
        (exampleListing.get ⟨3, by decide⟩).Info.Name ∧
    ((LogfileList.Less exampleListing ⟨1, by decide⟩ ⟨3, by decide⟩ = true ∧
        LogfileList.Less exampleListing ⟨3, by decide⟩ ⟨1, by decide⟩ = false) ∨
      (LogfileList.Less exampleListing ⟨3, by decide⟩ ⟨1, by decide⟩ = true ∧
        LogfileList.Less exampleListing ⟨1, by decide⟩ ⟨3, by decide⟩ = false)) :=
  have h : ¬ Tied (exampleListing.get ⟨1, by decide⟩).Info.Name
      (exampleListing.get ⟨3, by decide⟩).Info.Name := by
    rw [← lessNames_tied_iff]; decide
  ⟨h, (less_strict_weak_order exampleListing).2.2.2.2.2 ⟨1, by decide⟩ ⟨3, by decide⟩ h⟩

/-- Counterexample for C10 as stated: `NewLogfileList` keeps both `evt` and `evt.old` for the
log name `evt`; the two entries are distinct and neither is `Less` than the other. -/
theorem less_total_counterexample :
    NewLogfileList (.ok tiedDirectory) "/var/log/condor" "evt" = .ok tiedListing ∧
    tiedListing.get ⟨0, by decide⟩ ≠ tiedListing.get ⟨1, by decide⟩ ∧
    LogfileList.Less tiedListing ⟨0, by decide⟩ ⟨1, by decide⟩ = false ∧
    LogfileList.Less tiedListing ⟨1, by decide⟩ ⟨0, by decide⟩ = false := by
  refine ⟨rfl, by decide, by decide, by decide⟩


/-! ### Timestamps -/

theorem digitChar_isDigit (d : Nat) (h : d < 10) : isDigit (digitChar d) = true := by
  interval_cases d <;> decide

theorem digitChar_value (d : Nat) (h : d < 10) : (digitChar d).toNat - '0'.toNat = d := by
  interval_cases d <;> decide

theorem decimalValue_snoc (ds : List Char) (c : Char) :
    decimalValue (ds ++ [c]) = 10 * decimalValue ds + (c.toNat - '0'.toNat) := by
  simp [decimalValue, List.foldl_append]

theorem digitsFixed_length (w : Nat) : ∀ u, (digitsFixed w u).length = w := by
  induction w with
  | zero => intro u; rfl
  | succ w ih => intro u; simp [digitsFixed, ih]

theorem digitsFixed_isDigit (w : Nat) : ∀ u, ∀ c ∈ digitsFixed w u, isDigit c = true := by
  induction w with
  | zero => intro u c hc; simp [digitsFixed] at hc
  | succ w ih =>
    intro u c hc
    simp only [digitsFixed, List.mem_append, List.mem_singleton] at hc
    rcases hc with hc | rfl
    · exact ih _ c hc
    · exact digitChar_isDigit _ (Nat.mod_lt _ (by decide))

theorem decimalValue_digitsFixed (w : Nat) : ∀ u, decimalValue (digitsFixed w u) = u % 10 ^ w := by
  induction w with
  | zero => intro u; simp [digitsFixed, decimalValue, Nat.mod_one]
  | succ w ih =>
    intro u
    rw [digitsFixed, decimalValue_snoc, ih, digitChar_value _ (Nat.mod_lt _ (by decide)),
      pow_succ]
    have h2 : u % (10 ^ w * 10) = u % 10 + 10 * (u / 10 % 10 ^ w) := by
      rw [Nat.mul_comm (10 ^ w) 10, Nat.mod_mul]
    omega

theorem digitsFixed_zero (w : Nat) : digitsFixed w 0 = List.replicate w '0' := by
  induction w with
  | zero => rfl
  | succ w ih =>
    rw [digitsFixed, Nat.zero_div, ih, List.replicate_succ']
    rfl

theorem natDigits_pad (w : Nat) :
    ∀ u fuel, 0 < w → u < 10 ^ w → u < fuel →
      List.replicate (w - (natDigits fuel u).length) '0' ++ natDigits fuel u
        = digitsFixed w u := by
  induction w with
  | zero => intro u fuel h; exact absurd h (by decide)
  | succ w ih =>
    intro u fuel _ hu hf
    obtain ⟨f, rfl⟩ : ∃ f, fuel = f + 1 := ⟨fuel - 1, by omega⟩
    by_cases h10 : u < 10
    · have hdiv : u / 10 = 0 := by omega
      have hmod : u % 10 = u := by omega
      simp [natDigits, h10, digitsFixed, hdiv, hmod, digitsFixed_zero]
    · have hw : 0 < w := by
        rcases Nat.eq_zero_or_pos w with h | h
        · subst h; simp at hu; omega
        · exact h
      have hu' : u / 10 < 10 ^ w := by
        rw [pow_succ] at hu
        exact Nat.div_lt_of_lt_mul (by rw [Nat.mul_comm]; exact hu)
      have hf' : u / 10 < f := by omega
      have := ih (u / 10) f hw hu' hf'
      simp only [natDigits, h10, if_false, digitsFixed, List.length_append, List.length_singleton,
        Nat.add_sub_add_right]
      rw [← List.append_assoc, this]

theorem appendInt_fixed (w n : Nat) (hw : 0 < w) (hn : n < 10 ^ w) :
    appendInt (n : Int) w = digitsFixed w n := by
  have hneg : ¬ ((n : Int) < 0) := by omega
  simp only [appendInt, Int.natAbs_ofNat, hneg, if_false, List.nil_append]
  exact natDigits_pad w n (n + 1) hw hn (by omega)

theorem takeNumber_fixed (w u : Nat) (rest : List Char) :
    takeNumber w (digitsFixed w u ++ rest) = some (u % 10 ^ w, rest) := by
  have hlen := digitsFixed_length w u
  have htake : (digitsFixed w u ++ rest).take w = digitsFixed w u := List.take_left' hlen
  have hdrop : (digitsFixed w u ++ rest).drop w = rest := List.drop_left' hlen
  have hall : (digitsFixed w u).all isDigit = true := by
    rw [List.all_eq_true]; exact digitsFixed_isDigit w u
  have hle : w ≤ (digitsFixed w u ++ rest).length := by
    rw [List.length_append, hlen]; omega
  simp only [takeNumber, htake, hdrop, hall, hle, and_self, if_true, decimalValue_digitsFixed]

theorem takeChar_cons (c : Char) (rest : List Char) : takeChar c (c :: rest) = some rest := by
  simp [takeChar]

theorem takeWhile_append_stop (p : Char → Bool) (xs : List Char) (z : Char) (zs : List Char)
    (hxs : ∀ c ∈ xs, p c = true) (hz : p z = false) :
    (xs ++ z :: zs).takeWhile p = xs ∧ (xs ++ z :: zs).dropWhile p = z :: zs := by
  induction xs with
  | nil => simp [List.takeWhile, List.dropWhile, hz]
  | cons x xs ih =>
    have hx : p x = true := hxs x (by simp)
    have ih' := ih (fun c hc => hxs c (by simp [hc]))
    simp [List.takeWhile, List.dropWhile, hx, ih'.1, ih'.2]

theorem decimalValue_append_zeros (xs : List Char) (k : Nat) :
    decimalValue (xs ++ List.replicate k '0') = decimalValue xs * 10 ^ k := by
  induction k with
  | zero => simp
  | succ k ih =>
    rw [List.replicate_succ', ← List.append_assoc, decimalValue_snoc, ih, pow_succ]
    simp
    ring

theorem trim_zeros (l : List Char) :
    l = (l.reverse.dropWhile (fun c => c == '0')).reverse
      ++ List.replicate (l.length - (l.reverse.dropWhile (fun c => c == '0')).reverse.length) '0' := by
  have h := List.takeWhile_append_dropWhile (fun c => c == '0') l.reverse
  have hrep : l.reverse.takeWhile (fun c => c == '0')
      = List.replicate (l.reverse.takeWhile (fun c => c == '0')).length '0' := by
    rw [List.eq_replicate_iff]
    refine ⟨rfl, ?_⟩
    intro b hb
    have := List.mem_takeWhile_imp hb
    simpa using this
  have hl : l = (l.reverse.dropWhile (fun c => c == '0')).reverse
      ++ (l.reverse.takeWhile (fun c => c == '0')).reverse := by
    rw [← List.reverse_append, h, List.reverse_reverse]
  have hlen : l.length = (l.reverse.dropWhile (fun c => c == '0')).length
      + (l.reverse.takeWhile (fun c => c == '0')).length := by
    have := congrArg List.length h
    simp only [List.length_append, List.length_reverse] at this
    omega
  have hk : l.length - (l.reverse.dropWhile (fun c => c == '0')).reverse.length
      = (l.reverse.takeWhile (fun c => c == '0')).length := by
    rw [List.length_reverse]; omega
  rw [hk]
  conv_lhs => rw [hl]
  rw [hrep, List.reverse_replicate, List.length_replicate]

theorem takeFraction_formatNano (n : Nat) (hn : n < 10 ^ 9) (z : Char) (zs : List Char)
    (hz1 : z ≠ '.') (hz2 : isDigit z = false) :
    takeFraction (formatNano n ++ z :: zs) = some (n, z :: zs) := by
  obtain ⟨T, hTdef⟩ : ∃ T, T = ((digitsFixed 9 n).reverse.dropWhile (fun c => c == '0')).reverse :=
    ⟨_, rfl⟩
  have hfmt : formatNano n = if T.isEmpty then [] else '.' :: T := by
    rw [hTdef]; rfl
  have hD : digitsFixed 9 n = T ++ List.replicate (9 - T.length) '0' := by
    have := trim_zeros (digitsFixed 9 n)
    rw [← hTdef, digitsFixed_length] at this
    exact this
  have hTlen : T.length ≤ 9 := by
    have := congrArg List.length hD
    rw [digitsFixed_length, List.length_append] at this
    omega
  have hval : n = decimalValue T * 10 ^ (9 - T.length) := by
    have h1 := decimalValue_digitsFixed 9 n
    rw [hD, decimalValue_append_zeros, Nat.mod_eq_of_lt hn] at h1
    exact h1.symm
  have hTdig : ∀ c ∈ T, isDigit c = true := by
    intro c hc
    apply digitsFixed_isDigit 9 n c
    rw [hD]
    exact List.mem_append_left _ hc
  by_cases hT : T = []
  · subst hT
    have hn0 : n = 0 := by simpa [decimalValue] using hval
    rw [hfmt, hn0]
    simp only [List.isEmpty_nil, if_true, List.nil_append]
    unfold takeFraction
    split
    · rename_i h; simp at h; exact absurd h.1 hz1
    · rfl
  · have hne : T.isEmpty = false := by
      cases T with
      | nil => exact absurd rfl hT
      | cons _ _ => rfl
    rw [hfmt, hne]
    have hsplit := takeWhile_append_stop isDigit T z zs hTdig hz2
    simp only [Bool.false_eq_true, if_false, List.cons_append, takeFraction, hsplit.1, hsplit.2,
      hne, false_or]
    rw [if_neg (by omega), ← hval]

theorem takeZone_formatZone (offset : Int) (h60 : offset % 60 = 0)
    (hlo : -86400 < offset) (hhi : offset < 86400) :
    takeZone (formatZone offset) = some offset := by
  by_cases h0 : offset = 0
  · subst h0; rfl
  · have hzone : offset.natAbs / 60 ≠ 0 := by omega
    have hh : offset.natAbs / 60 / 60 < 10 ^ 2 := by norm_num; omega
    have hm : offset.natAbs / 60 % 60 < 10 ^ 2 := by norm_num; omega
    have hfix : ∀ sign : Char, (sign = '+' ∨ sign = '-') →
        takeZone (sign :: (appendInt ((offset.natAbs / 60 / 60 : Nat) : Int) 2
          ++ ':' :: appendInt ((offset.natAbs / 60 % 60 : Nat) : Int) 2))
        = some (if sign = '-' then
            -(((offset.natAbs / 60 / 60 * 60 + offset.natAbs / 60 % 60) * 60 : Nat) : Int)
          else (((offset.natAbs / 60 / 60 * 60 + offset.natAbs / 60 % 60) * 60 : Nat) : Int)) := by
      intro sign hsign
      rw [appendInt_fixed 2 _ (by decide) hh, appendInt_fixed 2 _ (by decide) hm]
      have h2 : takeNumber 2 (digitsFixed 2 (offset.natAbs / 60 % 60))
          = some (offset.natAbs / 60 % 60 % 10 ^ 2, []) := by
        have := takeNumber_fixed 2 (offset.natAbs / 60 % 60) []
        rwa [List.append_nil] at this
      unfold takeZone
      split
      · rename_i h; simp at h
      · rename_i s r _ heq
        simp only [List.cons.injEq] at heq
        obtain ⟨rfl, rfl⟩ := heq
        simp only [hsign, if_true, takeNumber_fixed, takeChar_cons, h2,
          Nat.mod_eq_of_lt hh, Nat.mod_eq_of_lt hm]
        rw [if_neg (by omega)]
      · rename_i h; simp at h
    have hform : formatZone offset
        = (if offset < 0 ∧ offset.natAbs / 60 ≠ 0 then '-' else '+') ::
          (appendInt ((offset.natAbs / 60 / 60 : Nat) : Int) 2
            ++ ':' :: appendInt ((offset.natAbs / 60 % 60 : Nat) : Int) 2) := by
      simp only [formatZone, if_neg h0]
    rw [hform]
    by_cases hneg : offset < 0
    · have hc : (offset < 0 ∧ offset.natAbs / 60 ≠ 0) := ⟨hneg, hzone⟩
      rw [if_pos hc, hfix '-' (Or.inr rfl)]
      simp only [if_true]
      congr 1
      omega
    · have hc : ¬ (offset < 0 ∧ offset.natAbs / 60 ≠ 0) := fun h => hneg h.1
      rw [if_neg hc, hfix '+' (Or.inl rfl)]
      rw [if_neg (by decide)]
      congr 1
      omega

theorem formatZone_head (offset : Int) :
    ∃ z zs, formatZone offset = z :: zs ∧ z ≠ '.' ∧ isDigit z = false := by
  unfold formatZone
  by_cases h0 : offset = 0
  · exact ⟨'Z', [], by simp [h0], by decide, by decide⟩
  · by_cases hc : offset < 0 ∧ offset.natAbs / 60 ≠ 0
    · refine ⟨'-', appendInt ((offset.natAbs / 60 / 60 : Nat) : Int) 2
        ++ ':' :: appendInt ((offset.natAbs / 60 % 60 : Nat) : Int) 2, ?_, by decide, by decide⟩
      simp only [if_neg h0, if_pos hc]
    · refine ⟨'+', appendInt ((offset.natAbs / 60 / 60 : Nat) : Int) 2
        ++ ':' :: appendInt ((offset.natAbs / 60 % 60 : Nat) : Int) 2, ?_, by decide, by decide⟩
      simp only [if_neg h0, if_neg hc]

theorem parse_format (t : Time) (hv : t.Valid) (hw : t.Writable) :
    parseTimestamp (formatRFC3339Nano t) = some t := by
  obtain ⟨hm1, hm2, hd1, hd2, hh, hmi, hs, hns⟩ := hv
  obtain ⟨hy1, hy2, ho1, ho2, ho3⟩ := hw
  obtain ⟨y, hy⟩ : ∃ y : Nat, t.year = (y : Int) := ⟨t.year.toNat, by omega⟩
  have hyb : y < 10 ^ 4 := by norm_num; omega
  have hday : t.day < 10 ^ 2 := by
    have : daysIn t.month t.year ≤ 31 := by
      unfold daysIn; split_ifs <;> omega
    norm_num; omega
  obtain ⟨z, zs, hz, hz1, hz2⟩ := formatZone_head t.offset
  have hzone := takeZone_formatZone t.offset ho1 ho2 ho3
  have hfrac := takeFraction_formatNano t.nsec hns z zs hz1 hz2
  rw [hz] at hzone
  have hd2' : t.day ≤ daysIn t.month (y : Int) := by rw [← hy]; exact hd2
  simp only [formatRFC3339Nano, parseTimestamp, hy, hz,
    appendInt_fixed 4 y (by decide) hyb,
    appendInt_fixed 2 t.month (by decide) (by norm_num; omega),
    appendInt_fixed 2 t.day (by decide) hday,
    appendInt_fixed 2 t.hour (by decide) (by norm_num; omega),
    appendInt_fixed 2 t.minute (by decide) (by norm_num; omega),
    appendInt_fixed 2 t.second (by decide) (by norm_num; omega),
    takeNumber_fixed, takeChar_cons, hfrac, hzone,
    Nat.mod_eq_of_lt hyb, Nat.mod_eq_of_lt hday,
    Nat.mod_eq_of_lt (show t.month < 10 ^ 2 by norm_num; omega),
    Nat.mod_eq_of_lt (show t.hour < 10 ^ 2 by norm_num; omega),
    Nat.mod_eq_of_lt (show t.minute < 10 ^ 2 by norm_num; omega),
    Nat.mod_eq_of_lt (show t.second < 10 ^ 2 by norm_num; omega)]
  rw [if_pos ⟨hm1, hm2, hd1, hd2', hh, hmi, hs⟩]
  cases t
  simp only at hy
  simp [hy]

/-! ### Tombstones -/

theorem marshalJSON_ok (t : Time) (hw : t.Writable) :
    t.MarshalJSON = .ok (String.mk (formatRFC3339Nano t)) := by
  obtain ⟨h1, h2, -⟩ := hw
  have : ¬ (t.year < 0 ∨ t.year ≥ 10000) := by omega
  simp only [Time.MarshalJSON, this, if_false]

theorem timeParse_format (layout : Layout) (t : Time) (hv : t.Valid) (hw : t.Writable) :
    timeParse layout (String.mk (formatRFC3339Nano t)) = .ok t := by
  simp only [timeParse, parse_format t hv hw]

theorem decode_currentPos (n : Int) (hpos : -(2 ^ 63) ≤ n ∧ n < 2 ^ 63) (d : Decoded) :
    decodeMember d ("CurrentPos", .number (some n))
      = { d with value := { d.value with CurrentPos := n } } := by
  have hk1 : fieldOf "CurrentPos" = some .CurrentPos := by decide
  simp only [decodeMember, hk1]
  rw [if_pos hpos]

theorem decode_inode (n : Nat) (hino : n < 2 ^ 64) (d : Decoded) :
    decodeMember d ("Inode", .number (some (n : Int)))
      = { d with value := { d.value with Inode := n } } := by
  have hk4 : fieldOf "Inode" = some .Inode := by decide
  have hino' : (0 : Int) ≤ (n : Int) ∧ (n : Int) < 2 ^ 64 := by
    constructor
    · omega
    · exact_mod_cast hino
  simp only [decodeMember, hk4]
  rw [if_pos hino', Int.toNat_ofNat]

theorem decode_date (x : String) (d : Decoded) :
    decodeMember d ("Date", .string x) = { d with value := { d.value with Date := x } } := by
  have hk2 : fieldOf "Date" = some .Date := by decide
  simp only [decodeMember, hk2]

theorem decode_logLastMod (x : String) (d : Decoded) :
    decodeMember d ("LogLastMod", .string x)
      = { d with value := { d.value with LogLastMod := x } } := by
  have hk3 : fieldOf "LogLastMod" = some .LogLastMod := by decide
  simp only [decodeMember, hk3]

theorem unmarshal_marshalled (pos : Int) (date logLastMod : String) (ino : Nat)
    (hpos : -(2 ^ 63) ≤ pos ∧ pos < 2 ^ 63) (hino : ino < 2 ^ 64) :
    jsonUnmarshal (.json (.object [("CurrentPos", .number (some pos)), ("Date", .string date),
        ("LogLastMod", .string logLastMod), ("Inode", .number (some (ino : Int)))]))
      = .ok (some ⟨pos, date, logLastMod, ino⟩) := by
  have hobj : ∀ members, jsonUnmarshal (.json (.object members)) =
      if (members.foldl decodeMember
        { value := { CurrentPos := 0, Date := "", LogLastMod := "", Inode := 0 },
          failed := false }).failed = true
      then .error "json: cannot unmarshal into Go struct field"
      else .ok (some (members.foldl decodeMember
        { value := { CurrentPos := 0, Date := "", LogLastMod := "", Inode := 0 },
          failed := false }).value) := fun _ => rfl
  rw [hobj, List.foldl_cons, List.foldl_cons, List.foldl_cons, List.foldl_cons, List.foldl_nil,
    decode_currentPos pos hpos, decode_date, decode_logLastMod, decode_inode ino hino]
  rfl

/-- C9 (amended): for every tombstone whose `Date` and `LogLastMod` have a year in `[0, 9999]`
and a zone offset of whole minutes of less than a day, `WriteToFile` succeeds and
`ReadTombstone` then returns a tombstone with the same `CurrentPos` and `Inode` and with `Date`
and `LogLastMod` equal to the written ones, nanoseconds included. -/
theorem tombstone_round_trip (t : Tombstone) (file : TombstoneFile)
    (hpos : -(2 ^ 63) ≤ t.CurrentPos ∧ t.CurrentPos < 2 ^ 63) (hino : t.Inode < 2 ^ 64)
    (hdv : t.Date.Valid) (hlv : t.LogLastMod.Valid)
    (hdw : t.Date.Writable) (hlw : t.LogLastMod.Writable) :
    (t.WriteToFile file).2 = none ∧ ReadTombstone (t.WriteToFile file).1 = .ok t := by
  have hwrite : t.WriteToFile file
      = (some (.json (.object [("CurrentPos", .number (some t.CurrentPos)),
          ("Date", .string (String.mk (formatRFC3339Nano t.Date))),
          ("LogLastMod", .string (String.mk (formatRFC3339Nano t.LogLastMod))),
          ("Inode", .number (some (t.Inode : Int)))])), none) := by
    simp only [Tombstone.WriteToFile, jsonMarshal, marshalJSON_ok _ hdw, marshalJSON_ok _ hlw]
  have hread : ∀ c, ReadTombstone (some c) =
      match jsonUnmarshal c with
      | .error err => .error err
      | .ok u => UnmodifiedTombstone.Convert u := fun _ => rfl
  have hconv : ∀ u : UnmodifiedTombstone, UnmodifiedTombstone.Convert (some u) =
      match timeParse .RFC3339Nano u.Date with
      | .error err => .error err
      | .ok parsedDate =>
        match timeParse .RFC3339 u.LogLastMod with
        | .error err => .error err
        | .ok parsedLogLastMod => .ok ⟨u.CurrentPos, parsedDate, parsedLogLastMod, u.Inode⟩ :=
    fun _ => rfl
  rw [hwrite]
  refine ⟨rfl, ?_⟩
  rw [hread, unmarshal_marshalled _ _ _ _ hpos hino]
  show UnmodifiedTombstone.Convert (some _) = _
  rw [hconv, timeParse_format _ _ hdv hdw, timeParse_format _ _ hlv hlw]

/-- Witness for C9: a tombstone with nanoseconds in both times and a zone west of UTC comes back
unchanged. -/
theorem tombstone_round_trip_witness :
    (sampleTombstone.WriteToFile none).2 = none ∧
    ReadTombstone (sampleTombstone.WriteToFile none).1 = .ok sampleTombstone :=
  tombstone_round_trip sampleTombstone none (by decide) (by decide)
    (by unfold Time.Valid; decide) (by unfold Time.Valid; decide)
    (by unfold Time.Writable; decide) (by unfold Time.Writable; decide)

/-- Counterexample for C9 as stated: for a tombstone dated in the year 10000 `json.Marshal`
fails, `WriteToFile` returns the error and writes nothing, and `ReadTombstone` finds no
file. -/
theorem tombstone_round_trip_counterexample :
    farFutureTombstone.Date.Valid ∧ farFutureTombstone.LogLastMod.Valid ∧
    farFutureTombstone.WriteToFile none
      = (none, some ("json: error calling MarshalJSON for type time.Time: "
          ++ "Time.MarshalJSON: year outside of range [0,9999]")) ∧
    ReadTombstone (farFutureTombstone.WriteToFile none).1
      = .error "open /tmp/condor-log-monitor.tombstone: no such file or directory" := by
  refine ⟨by unfold Time.Valid; decide, by unfold Time.Valid; decide, by decide, by decide⟩

/-! ### `main` -/

theorem mainWith_tombstoneFile (w : World) (tombstone : Option Tombstone) :
    (mainWith w tombstone).tombstoneFile = w.tombstoneFile := rfl

theorem main_tombstoneFile (w : World) : (main w).tombstoneFile = w.tombstoneFile := by
  unfold main
  split
  · split <;> rfl
  · rfl

/-- C6: the tombstone written for position 10 of the live log (inode 5) is read back, the first
event of the live log ends at byte 10, and `main` publishes that event again: no part of `main`
behind the reading of the tombstone looks at `CurrentPos`, and every run that gets to the live
log publishes all events of the live log from its first line on. -/
theorem resume_ignores_position :
    ReadTombstone (sampleTombstone.WriteToFile none).1 = .ok sampleTombstone ∧
    sampleTombstone.CurrentPos = 10 ∧ sampleTombstone.Inode = 5 ∧
    (eventText ["100 a", "..."]).utf8ByteSize = 10 ∧
    (main (exampleWorld (sampleTombstone.WriteToFile none).1)).trace
      = [.tailFile "/var/log/condor/evt", .publish "100 a\n...\n", .publish "200 b\n...\n"] ∧
    (∀ (w : World) (t : Tombstone) (pos : Int),
      mainWith w (some { t with CurrentPos := pos }) = mainWith w (some t)) ∧
    (∀ (w : World) (tombstone : Option Tombstone), ∃ backlog : List Effect,
      (mainWith w tombstone).trace
        = backlog ++ [.tailFile (pathJoin w.logDir w.logFilename)]
          ++ (emitted false "" w.liveLines).map Effect.publish) := by
  refine ⟨by decide, rfl, rfl, by decide, by decide, ?_, ?_⟩
  · intro w t pos
    rfl
  · intro w tombstone
    simp only [mainWith, ParseEvent_published]
    exact ⟨_, rfl⟩

/-- C7: `main` leaves the tombstone file as it found it in every run; in a run without a
tombstone that replays the rotated file and reaches the tailing of the live log there is
still no tombstone file at the end. -/
theorem main_writes_no_tombstone :
    (∀ w : World, (main w).tombstoneFile = w.tombstoneFile) ∧
    (main (exampleWorld none)).panicked = false ∧
    (main (exampleWorld none)).trace
      = [.parseFile "/var/log/condor/evt.1", .publish "100 old\n...\n",
         .tailFile "/var/log/condor/evt", .publish "100 a\n...\n", .publish "200 b\n...\n"] ∧
    (main (exampleWorld none)).tombstoneFile = none := by
  refine ⟨main_tombstoneFile, by decide!, by decide!, by decide!⟩

/-- C8: on a tombstone file that holds the JSON text `null`, `json.Unmarshal` leaves the pointer
nil and `ReadTombstone` ends in a nil-pointer panic in `Convert`, which takes the goroutine of
`main` down before any log file is read.  Every other content gives a tombstone or an error,
and on an error `main` goes on without a tombstone. -/
theorem read_tombstone_null_panics :
    ReadTombstone (some (.json .null))
      = .panic "runtime error: invalid memory address or nil pointer dereference" ∧
    (main (exampleWorld (some (.json .null)))).panicked = true ∧
    (main (exampleWorld (some (.json .null)))).trace = [] ∧
    (∀ file : TombstoneFile, file ≠ some (.json .null) →
      (∃ t, ReadTombstone file = .ok t) ∨ ∃ err, ReadTombstone file = .error err) ∧
    (∀ (w : World) (err : String), ReadTombstone w.tombstoneFile = .error err →
      main w = mainWith w none) := by
  refine ⟨rfl, by decide, by decide, ?_, ?_⟩
  · intro file hfile
    have hconv : ∀ u : UnmodifiedTombstone,
        (∃ t, UnmodifiedTombstone.Convert (some u) = .ok t) ∨
          ∃ err, UnmodifiedTombstone.Convert (some u) = .error err := by
      intro u
      cases h1 : timeParse .RFC3339Nano u.Date with
      | error e => exact Or.inr ⟨e, by simp only [UnmodifiedTombstone.Convert, h1]⟩
      | ok d =>
        cases h2 : timeParse .RFC3339 u.LogLastMod with
        | error e => exact Or.inr ⟨e, by simp only [UnmodifiedTombstone.Convert, h1, h2]⟩
        | ok l =>
          exact Or.inl ⟨⟨u.CurrentPos, d, l, u.Inode⟩,
            by simp only [UnmodifiedTombstone.Convert, h1, h2]⟩
    cases file with
    | none => exact Or.inr ⟨_, rfl⟩
    | some c =>
      cases c with
      | garbage => exact Or.inr ⟨_, rfl⟩
      | json text =>
        cases text with
        | null => exact absurd rfl hfile
        | bool b => exact Or.inr ⟨_, rfl⟩
        | number n => exact Or.inr ⟨_, rfl⟩
        | string x => exact Or.inr ⟨_, rfl⟩
        | array => exact Or.inr ⟨_, rfl⟩
        | object members =>
          show (∃ t, ReadTombstone (some (.json (.object members))) = .ok t) ∨ _
          unfold ReadTombstone jsonUnmarshal
          simp only
          split_ifs
          · exact Or.inr ⟨_, rfl⟩
          · exact hconv _
  · intro w err h
    unfold main
    cases hf : w.tombstoneFile with
    | none => simp [TombstoneExists]
    | some c =>
      rw [hf] at h
      simp [TombstoneExists, h]


/-! ### Reconnection -/

theorem step_blocked_send (s s' : Goroutines) (a : Action) (ch e : Nat)
    (hsup : s.sup = .inConnect (.sending ch) e) (h : step s a = some s') :
    s'.supervisorView = s.supervisorView := by
  unfold step at h
  split at h
  · exact absurd h (by simp)
  · cases a with
    | connected g =>
      cases g with
      | main =>
        simp only at h
        split at h
        · simp only [Option.some.injEq] at h; subst h; rfl
        · exact absurd h (by simp)
      | supervisor => simp [hsup] at h
    | connectFailed g =>
      cases g with
      | main =>
        simp only at h
        split at h
        · simp only [Option.some.injEq] at h; subst h; rfl
        · exact absurd h (by simp)
      | supervisor => simp [hsup] at h
    | handoff sender receiver =>
      cases sender <;> cases receiver <;>
        simp only [Goroutines.offers, Goroutines.receiving, hsup, ne_eq, not_true_eq_false,
          false_and, and_false, if_false, Bool.false_eq_true] at h
      all_goals first
        | exact absurd h (by simp)
        | (split at h <;> exact absurd h (by simp))
    | abnormalClose k =>
      simp only at h
      split at h
      · simp only [Option.some.injEq] at h; subst h; rfl
      · exact absurd h (by simp)
    | gracefulClose k =>
      simp only at h
      split at h
      · simp only [Option.some.injEq] at h; subst h; rfl
      · exact absurd h (by simp)
    | recvError => simp [hsup] at h
    | closeNotify k =>
      simp only at h
      split at h
      · simp only [Option.some.injEq] at h; subst h; rfl
      · exact absurd h (by simp)
    | recvClosed => simp [hsup] at h

theorem run_blocked_send (schedule : List Action) :
    ∀ (s s' : Goroutines) (ch e : Nat), s.sup = .inConnect (.sending ch) e →
      runSchedule s schedule = some s' → s'.supervisorView = s.supervisorView := by
  induction schedule with
  | nil =>
    intro s s' ch e _ h
    simp only [runSchedule, Option.some.injEq] at h
    rw [h]
  | cons a rest ih =>
    intro s s' ch e hsup h
    simp only [runSchedule] at h
    cases hstep : step s a with
    | none => rw [hstep] at h; exact absurd h (by simp)
    | some s1 =>
      rw [hstep] at h
      have h1 := step_blocked_send s s1 a ch e hsup hstep
      have hsup1 : s1.sup = .inConnect (.sending ch) e := by
        have := congrArg Prod.fst h1
        simp only [Goroutines.supervisorView] at this
        rw [this, hsup]
      rw [ih s1 s' ch e hsup1 h, h1]

theorem offers_main (s : Goroutines) (ch : Nat) (h : s.offers .main = some ch) :
    s.main = .inConnect (.sending ch) := by
  cases hm : s.main with
  | inConnect c =>
    cases c with
    | dialing => simp [Goroutines.offers, hm] at h
    | sending ch' =>
      simp only [Goroutines.offers, hm, Option.some.injEq] at h
      rw [h]
  | exited => simp [Goroutines.offers, hm] at h
  | running => simp [Goroutines.offers, hm] at h

theorem init_inv : Inv Goroutines.init := by
  refine ⟨by decide, by decide, ?_, ?_, ?_, ?_⟩
  · intro c _; exact ⟨rfl, rfl⟩
  · intro ch h; simp [Goroutines.init] at h
  · intro c e h; simp [Goroutines.init] at h
  · intro e h; simp [Goroutines.init] at h

theorem step_inv (s s' : Goroutines) (a : Action) (hinv : Inv s) (h : step s a = some s') :
    Inv s' := by
  obtain ⟨h1, h2, h3, h4, h5, h6⟩ := hinv
  unfold step at h
  split at h
  · exact absurd h (by simp)
  · cases a with
    | connected g =>
      cases g with
      | main =>
        simp only at h
        split at h
        · rename_i hm
          simp only [Option.some.injEq] at h; subst h
          obtain ⟨hs, hc⟩ := h3 _ hm
          refine ⟨h1, h2, ?_, ?_, ?_, ?_⟩
          · intro c _; exact ⟨hs, hc⟩
          · intro ch hch
            simp only [MainPC.inConnect.injEq, ConnectPC.sending.injEq] at hch
            simp only; omega
          · intro c e he; simp only [hs] at he; exact absurd he (by simp)
          · intro e he; simp only [hs] at he; exact absurd he (by simp)
        · exact absurd h (by simp)
      | supervisor =>
        simp only at h
        split at h
        · rename_i e hsup
          simp only [Option.some.injEq] at h; subst h
          obtain ⟨hc, hr, he, hn1, hn2⟩ := h5 _ _ hsup
          have hne : e ≠ s.conns := by omega
          refine ⟨h1, h2, ?_, ?_, ?_, ?_⟩
          · intro c hm
            have := (h3 c hm).1
            rw [hsup] at this; exact absurd this (by simp)
          · intro ch hch
            have := h4 ch hch
            simp only; omega
          · intro c e' he'
            simp only [SupervisorPC.inConnect.injEq] at he'
            obtain ⟨-, rfl⟩ := he'
            refine ⟨hc, hr, by simp only; omega, ?_, ?_⟩
            · simp only [Function.update_noteq hne]; exact hn1
            · simp only [Function.update_noteq hne]; exact hn2
          · intro e' he'; simp only at he'; exact absurd he' (by simp)
        · exact absurd h (by simp)
    | connectFailed g =>
      cases g with
      | main =>
        simp only at h
        split at h
        · rename_i hm
          simp only [Option.some.injEq] at h; subst h
          obtain ⟨hs, hc⟩ := h3 _ hm
          refine ⟨h1, h2, ?_, ?_, ?_, ?_⟩
          · intro c hc'; simp only at hc'; exact absurd hc' (by simp)
          · intro ch hch; simp only at hch; exact absurd hch (by simp)
          · intro c e he; simp only [hs] at he; exact absurd he (by simp)
          · intro e he; simp only [hs] at he; exact absurd he (by simp)
        · exact absurd h (by simp)
      | supervisor =>
        simp only at h
        split at h
        · rename_i e hsup
          simp only [Option.some.injEq] at h; subst h
          obtain ⟨hc, hr, he, hn1, hn2⟩ := h5 _ _ hsup
          refine ⟨h1, by simp only; omega, ?_, ?_, ?_, ?_⟩
          · intro c hm
            have := (h3 c hm).1
            rw [hsup] at this; exact absurd this (by simp)
          · exact h4
          · intro c e' he'; simp only at he'; exact absurd he' (by simp)
          · intro e' he'
            simp only [SupervisorPC.selectClose.injEq] at he'
            subst he'
            exact ⟨he, fun _ => ⟨hn1, hn2⟩⟩
        · exact absurd h (by simp)
    | handoff sender receiver =>
      cases sender with
      | main =>
        cases receiver with
        | main =>
          simp only [ne_eq, not_true_eq_false, false_and, if_false] at h
          split at h <;> exact absurd h (by simp)
        | supervisor =>
          simp only at h
          split at h
          · rename_i ch hoff
            split at h
            · rename_i hcond
              simp only [Option.some.injEq] at h; subst h
              have hm : s.main = .inConnect (.sending ch) := offers_main s ch hoff
              obtain ⟨hs, hc⟩ := h3 _ hm
              refine ⟨?_, ?_, ?_, ?_, ?_, ?_⟩
              · exact h1
              · exact h2
              · intro c hc'
                simp only [Goroutines.afterSend, Goroutines.afterReceive] at hc'
                exact absurd hc' (by simp)
              · intro ch' hc'
                simp only [Goroutines.afterSend, Goroutines.afterReceive] at hc'
                exact absurd hc' (by simp)
              · intro c e he
                simp only [Goroutines.afterSend, Goroutines.afterReceive] at he
                exact absurd he (by simp)
              · intro e he
                simp only [Goroutines.afterSend, Goroutines.afterReceive,
                  SupervisorPC.selectClose.injEq] at he
                subst he
                refine ⟨h4 _ hm, ?_⟩
                intro hcalls
                simp only [Goroutines.afterSend, Goroutines.afterReceive] at hcalls
                rw [hc] at hcalls
                exact absurd hcalls (by decide)
            · exact absurd h (by simp)
          · exact absurd h (by simp)
      | supervisor =>
        cases receiver with
        | main =>
          simp only [Goroutines.receiving, Bool.false_eq_true, and_false, if_false] at h
          split at h <;> exact absurd h (by simp)
        | supervisor =>
          simp only [ne_eq, not_true_eq_false, false_and, if_false] at h
          split at h <;> exact absurd h (by simp)
    | abnormalClose k =>
      simp only at h
      split at h
      · rename_i hk
        simp only [Option.some.injEq] at h; subst h
        refine ⟨h1, h2, h3, h4, ?_, ?_⟩
        · intro c e he
          obtain ⟨hc, hr, hlt, hn1, hn2⟩ := h5 c e he
          have hne : e ≠ k := fun heq => hn2 (heq ▸ hk.2)
          refine ⟨hc, hr, hlt, ?_, ?_⟩
          · simp only [Function.update_noteq hne]; exact hn1
          · simp only [Function.update_noteq hne]; exact hn2
        · intro e he
          obtain ⟨hlt, hn⟩ := h6 e he
          refine ⟨hlt, ?_⟩
          intro hc
          obtain ⟨hn1, hn2⟩ := hn hc
          have hne : e ≠ k := fun heq => hn2 (heq ▸ hk.2)
          simp only [Function.update_noteq hne]
          exact ⟨hn1, hn2⟩
      · exact absurd h (by simp)
    | gracefulClose k =>
      simp only at h
      split at h
      · rename_i hk
        simp only [Option.some.injEq] at h; subst h
        refine ⟨h1, h2, h3, h4, ?_, ?_⟩
        · intro c e he
          obtain ⟨hc, hr, hlt, hn1, hn2⟩ := h5 c e he
          have hne : e ≠ k := fun heq => hn2 (heq ▸ hk.2)
          refine ⟨hc, hr, hlt, ?_, ?_⟩
          · simp only [Function.update_noteq hne]; exact hn1
          · simp only [Function.update_noteq hne]; exact hn2
        · intro e he
          obtain ⟨hlt, hn⟩ := h6 e he
          refine ⟨hlt, ?_⟩
          intro hc
          obtain ⟨hn1, hn2⟩ := hn hc
          have hne : e ≠ k := fun heq => hn2 (heq ▸ hk.2)
          simp only [Function.update_noteq hne]
          exact ⟨hn1, hn2⟩
      · exact absurd h (by simp)
    | recvError =>
      simp only at h
      split at h
      · rename_i e hsup
        split at h
        · rename_i hpend
          simp only [Option.some.injEq] at h; subst h
          obtain ⟨hlt, hn⟩ := h6 e hsup
          have hc0 : s.connectCalls = 0 := by
            rcases Nat.eq_zero_or_pos s.connectCalls with h0 | hpos
            · exact h0
            · exact absurd hpend (hn (by omega)).1
          refine ⟨by simp only; omega, by simp only; omega, ?_, h4, ?_, ?_⟩
          · intro c hm
            have := (h3 c hm).1
            rw [hsup] at this; exact absurd this (by simp)
          · intro c e' he'
            simp only [SupervisorPC.inConnect.injEq] at he'
            obtain ⟨-, rfl⟩ := he'
            refine ⟨by simp only; omega, by simp only; omega, hlt, ?_, ?_⟩
            · simp only [Function.update_same]; exact (by decide)
            · simp only [Function.update_same]; exact (by decide)
          · intro e' he'; simp only at he'; exact absurd he' (by simp)
        · exact absurd h (by simp)
      · exact absurd h (by simp)
    | closeNotify k =>
      simp only at h
      split at h
      · rename_i hk
        simp only [Option.some.injEq] at h; subst h
        have hupd : ∀ e, s.notify e ≠ .sendingErr ∧ s.notify e ≠ .open →
            Function.update s.notify k NotifyChan.closed e ≠ .sendingErr ∧
              Function.update s.notify k NotifyChan.closed e ≠ .open := by
          intro e hn
          by_cases heq : e = k
          · subst heq
            simp only [Function.update_same]
            exact ⟨by decide, by decide⟩
          · simp only [Function.update_noteq heq]; exact hn
        refine ⟨h1, h2, h3, h4, ?_, ?_⟩
        · intro c e he
          obtain ⟨hc, hr, hlt, hn1, hn2⟩ := h5 c e he
          exact ⟨hc, hr, hlt, (hupd e ⟨hn1, hn2⟩).1, (hupd e ⟨hn1, hn2⟩).2⟩
        · intro e he
          obtain ⟨hlt, hn⟩ := h6 e he
          exact ⟨hlt, fun hc => hupd e (hn hc)⟩
      · exact absurd h (by simp)
    | recvClosed =>
      simp only at h
      split at h
      · rename_i e hsup
        split at h
        · simp only [Option.some.injEq] at h; subst h
          refine ⟨h1, h2, ?_, h4, ?_, ?_⟩
          · intro c hm
            have := (h3 c hm).1
            rw [hsup] at this; exact absurd this (by simp)
          · intro c e' he'; simp only at he'; exact absurd he' (by simp)
          · intro e' he'; simp only at he'; exact absurd he' (by simp)
        · exact absurd h (by simp)
      · exact absurd h (by simp)

theorem run_inv (schedule : List Action) :
    ∀ s s' : Goroutines, Inv s → runSchedule s schedule = some s' → Inv s' := by
  induction schedule with
  | nil =>
    intro s s' hinv h
    simp only [runSchedule, Option.some.injEq] at h
    rw [← h]; exact hinv
  | cons a rest ih =>
    intro s s' hinv h
    simp only [runSchedule] at h
    cases hstep : step s a with
    | none => rw [hstep] at h; exact absurd h (by simp)
    | some s1 =>
      rw [hstep] at h
      exact ih s1 s' (step_inv s s1 a hinv hstep) h

theorem step_returns (s s' : Goroutines) (a : Action) (ha : a ≠ .connectFailed .supervisor)
    (h : step s a = some s') : s'.connectReturns = s.connectReturns := by
  unfold step at h
  split at h
  · exact absurd h (by simp)
  · cases a with
    | connected g =>
      cases g with
      | main =>
        simp only at h
        split at h
        · simp only [Option.some.injEq] at h; subst h; rfl
        · exact absurd h (by simp)
      | supervisor =>
        simp only at h
        split at h
        · simp only [Option.some.injEq] at h; subst h; rfl
        · exact absurd h (by simp)
    | connectFailed g =>
      cases g with
      | main =>
        simp only at h
        split at h
        · simp only [Option.some.injEq] at h; subst h; rfl
        · exact absurd h (by simp)
      | supervisor => exact absurd rfl ha
    | handoff sender receiver =>
      cases sender with
      | main =>
        simp only at h
        split at h
        · split at h
          · simp only [Option.some.injEq] at h; subst h
            cases receiver <;> rfl
          · exact absurd h (by simp)
        · exact absurd h (by simp)
      | supervisor =>
        cases receiver with
        | main =>
          simp only [Goroutines.receiving, Bool.false_eq_true, and_false, if_false] at h
          split at h <;> exact absurd h (by simp)
        | supervisor =>
          simp only [ne_eq, not_true_eq_false, false_and, if_false] at h
          split at h <;> exact absurd h (by simp)
    | abnormalClose k =>
      simp only at h
      split at h
      · simp only [Option.some.injEq] at h; subst h; rfl
      · exact absurd h (by simp)
    | gracefulClose k =>
      simp only at h
      split at h
      · simp only [Option.some.injEq] at h; subst h; rfl
      · exact absurd h (by simp)
    | recvError =>
      simp only at h
      split at h
      · split at h
        · simp only [Option.some.injEq] at h; subst h; rfl
        · exact absurd h (by simp)
      · exact absurd h (by simp)
    | closeNotify k =>
      simp only at h
      split at h
      · simp only [Option.some.injEq] at h; subst h; rfl
      · exact absurd h (by simp)
    | recvClosed =>
      simp only at h
      split at h
      · split at h
        · simp only [Option.some.injEq] at h; subst h; rfl
        · exact absurd h (by simp)
      · exact absurd h (by simp)

theorem run_returns (schedule : List Action) :
    ∀ s s' : Goroutines, Action.connectFailed .supervisor ∉ schedule →
      runSchedule s schedule = some s' → s'.connectReturns = s.connectReturns := by
  induction schedule with
  | nil =>
    intro s s' _ h
    simp only [runSchedule, Option.some.injEq] at h
    rw [h]
  | cons a rest ih =>
    intro s s' hmem h
    simp only [runSchedule] at h
    cases hstep : step s a with
    | none => rw [hstep] at h; exact absurd h (by simp)
    | some s1 =>
      rw [hstep] at h
      have ha : a ≠ .connectFailed .supervisor := fun heq => hmem (by simp [heq])
      have hrest : Action.connectFailed .supervisor ∉ rest := fun hin => hmem (by simp [hin])
      rw [ih s1 s' hrest h, step_returns s s1 a ha hstep]

/-- C11: after `main` has connected and handed over its channel the supervisor waits at the
`select` with no call of `Connect` made.  After the first abnormal closure with a successful
reconnect it has called `Connect` once and stands inside that call at `errorChan <- msg`, and
no schedule moves it from there or lets the call return: the only receive on `errorChan` is
its own.  A second abnormal closure leaves its error pending on the new channel and brings
no second call.  In every run the supervisor calls `Connect` at most once, so it never has
two reconnects in progress, and a call whose connection succeeds never returns. -/
theorem supervisor_blocks_in_reconnect :
    (runSchedule Goroutines.init [.connected .main, .handoff .main .supervisor]).map
        Goroutines.supervisorView = some (.selectClose 0, 0, 0) ∧
    (runSchedule Goroutines.init firstClosure).map Goroutines.supervisorView
      = some (.inConnect (.sending 1) 0, 1, 0) ∧
    (∀ (s s' : Goroutines) (ch e : Nat) (schedule : List Action),
      s.sup = .inConnect (.sending ch) e → runSchedule s schedule = some s' →
      s'.supervisorView = s.supervisorView) ∧
    (runSchedule Goroutines.init (firstClosure ++ [.abnormalClose 1])).map
        (fun s => (s.supervisorView, s.notify 1))
      = some ((.inConnect (.sending 1) 0, 1, 0), .sendingErr) ∧
    (∀ (schedule : List Action) (s : Goroutines),
      runSchedule Goroutines.init schedule = some s →
      s.connectCalls ≤ 1 ∧ s.connectReturns ≤ s.connectCalls) ∧
    (∀ (schedule : List Action) (s : Goroutines),
      runSchedule Goroutines.init schedule = some s →
      Action.connectFailed .supervisor ∉ schedule → s.connectReturns = 0) := by
  refine ⟨by decide, by decide, ?_, by decide, ?_, ?_⟩
  · intro s s' ch e schedule hsup h
    exact run_blocked_send schedule s s' ch e hsup h
  · intro schedule s h
    have hinv := run_inv schedule Goroutines.init s init_inv h
    exact ⟨hinv.1, hinv.2.1⟩
  · intro schedule s h hmem
    exact run_returns schedule Goroutines.init s hmem h

end CLM
